import Mathlib

/-!
Verification of the denzai jailed virtual-storage core.

The development shallowly embeds the TypeScript sources:
  * `src/utils/path.ts`      — pure path algebra (`Denzai.Path`)
  * `src/memory_fs.ts`       — the in-memory filesystem engine (`Denzai.MemoryFs`)
  * `src/store/file_store.ts`— the host-filesystem adapter (`Denzai.FileStore`)
  * `src/web_store.ts`       — the blob-persisted adapter (`Denzai.WebStore`)

JavaScript strings are modelled by Lean `String` (a wrapper around
`List Char`); the JS string primitives used by the sources
(`split("/")`, `join("/")`, `startsWith`, the regex replaces
`/\/+/g → "/"` and `/\/$/ → ""`, default `Array.sort`) are implemented
character-by-character below with the exact JS semantics.
`Date` values are modelled as `Nat` (milliseconds); each engine
operation receives the current clock value `now` standing for the
`new Date()` calls it performs.
-/

namespace Denzai

/-- JS `s.split("/")` on the character list: always at least one piece,
empty pieces kept (`"".split("/") = [""]`, `"/".split("/") = ["",""]`). -/
def splitCh : List Char → List (List Char)
  | [] => [[]]
  | c :: rest =>
    if c = '/' then [] :: splitCh rest
    else
      match splitCh rest with
      | [] => [[c]]
      | h :: t => (c :: h) :: t

/-- JS `s.split("/")`. -/
def jsSplit (s : String) : List String :=
  (splitCh s.data).map (fun l => String.mk l)

/-- JS `parts.join("/")`. -/
def jsJoinSlash : List String → String
  | [] => ""
  | [a] => a
  | a :: rest => a ++ "/" ++ jsJoinSlash rest

/-- JS `s.startsWith(pre)` (character-prefix test). -/
def jsStartsWith (s pre : String) : Bool :=
  pre.data.isPrefixOf s.data

/-- Worker for `collapseCh`; the flag records whether the previously
emitted character was a slash (so further slashes are dropped). -/
def collapseAux : Bool → List Char → List Char
  | _, [] => []
  | prevSlash, c :: rest =>
    if c = '/' then
      if prevSlash then collapseAux true rest
      else '/' :: collapseAux true rest
    else c :: collapseAux false rest

/-- JS `s.replace(/\/+/g, "/")`: collapse every run of slashes to one.
(The variant `/\/\/+/g` used in `resolveWithinJail` rewrites only runs of
length ≥ 2, which yields the same string.) -/
def collapseCh (l : List Char) : List Char := collapseAux false l

/-- JS `s.replace(/\/$/, "")`: drop a single trailing slash. -/
def stripTrail (s : String) : String :=
  if s.data.getLast? = some '/' then String.mk s.data.dropLast else s

namespace Path

/-- `join(...segments)` from `src/utils/path.ts`. -/
def join (segments : List String) : String :=
  let parts := segments.flatMap
    (fun segment => (jsSplit segment).filter (fun part => !(part = "" || part = ".")))
  match segments with
  | [] => jsJoinSlash parts
  | s0 :: _ =>
    if jsStartsWith s0 "/" then "/" ++ jsJoinSlash parts else jsJoinSlash parts

/-- `isAbsolute` from `src/utils/path.ts`. -/
def isAbsolute (path : String) : Bool := jsStartsWith path "/"

/-- `isRelative` from `src/utils/path.ts`. -/
def isRelative (path : String) : Bool := !isAbsolute path

/-- `cleanPath` from `src/utils/path.ts`:
`path.replace(/\/+/g, "/").replace(/\/$/, "") || "/"`. -/
def cleanPath (path : String) : String :=
  let stripped := stripTrail (String.mk (collapseCh path.data))
  if stripped = "" then "/" else stripped

/-- `dirname` from `src/utils/path.ts`. -/
def dirname (path : String) : String :=
  let segments := (jsSplit path).dropLast
  if segments.length = 1 && isAbsolute path then "/"
  else if segments.length = 0 then "."
  else cleanPath (jsJoinSlash segments)

/-- Body of the `for (const part of parts)` loop of `resolve`:
`..` pops (`pop` on an empty array is a no-op, hence `dropLast`),
`.` and empty parts are skipped, anything else is pushed. -/
def resolveStep (bp : List String) (part : String) : List String :=
  if part = ".." then bp.dropLast
  else if part ≠ "." && part ≠ "" then bp ++ [part]
  else bp

/-- `resolve(basePath, relativePath)` from `src/utils/path.ts`. -/
def resolve (basePath relativePath : String) : String :=
  if isAbsolute relativePath then
    cleanPath relativePath
  else
    let baseParts := (jsSplit basePath).filter (fun part => part ≠ "")
    let parts := jsSplit relativePath
    let finalParts := parts.foldl resolveStep baseParts
    cleanPath ("/" ++ jsJoinSlash finalParts)

/-- auxiliary loop of `relative`: shift away the common leading components. -/
def dropCommon : List String → List String → List String × List String
  | a :: as, b :: bs =>
    if a = b then dropCommon as bs else (a :: as, b :: bs)
  | as, bs => (as, bs)

/-- JS `"../".repeat(n)`. -/
def repeatUp : Nat → String
  | 0 => ""
  | n + 1 => "../" ++ repeatUp n

/-- `relative(from, to)` from `src/utils/path.ts`. -/
def relative (fromPath toPath : String) : String :=
  let fromParts := (jsSplit (cleanPath fromPath)).filter (fun a => a ≠ "")
  let toParts := (jsSplit (cleanPath toPath)).filter (fun a => a ≠ "")
  let rest := dropCommon fromParts toParts
  let upSteps := rest.1.length
  let remainingPath := jsJoinSlash rest.2
  cleanPath (repeatUp upSteps ++ remainingPath)

/-- `withinJail(jail, path)` from `src/utils/path.ts`. -/
def withinJail (jail path : String) : Bool :=
  if isRelative path then true else jsStartsWith path jail

/-- `resolveWithinJail({jail, basePath, path})` from `src/utils/path.ts`. -/
def resolveWithinJail (jail basePath path : String) : String :=
  let resolvedPath := resolve basePath path
  let finalPath :=
    if withinJail jail resolvedPath then resolvedPath
    else String.mk (collapseCh (jail ++ "/" ++ resolvedPath).data)
  if finalPath = "/" then finalPath else stripTrail finalPath

end Path

/-! Specification-side vocabulary for talking about paths.
A *clean absolute path* is `"/"` followed by nonempty, slash-free
components joined by `"/"`; `renderAbs` builds it from its components. -/

/-- The components are nonempty and contain no slash. -/
def GoodComps (l : List String) : Prop :=
  ∀ s ∈ l, s ≠ "" ∧ '/' ∉ s.data

instance (l : List String) : Decidable (GoodComps l) := by
  unfold GoodComps; infer_instance

/-- The clean absolute path with the given components (`renderAbs [] = "/"`). -/
def renderAbs (l : List String) : String :=
  "/" ++ jsJoinSlash l

/-- Character list of a slash-joined component list. -/
def joinData (l : List String) : List Char :=
  (jsJoinSlash l).data

/-- The relative path made of `n` `".."` segments (`"" , ".." , "../.." , …`). -/
def dotsPath (n : Nat) : String :=
  jsJoinSlash (List.replicate n "..")

/-- Number of nonempty components of a path — the quantity `resolve`
uses as its stack of poppable components. -/
def depth (basePath : String) : Nat :=
  ((jsSplit basePath).filter (fun part => part ≠ "")).length

/-- The component list produced by the loop of `Path.resolve` on a
relative path (the final `baseParts` array). -/
def resolveParts (basePath relativePath : String) : List String :=
  (jsSplit relativePath).foldl Path.resolveStep
    ((jsSplit basePath).filter (fun part => part ≠ ""))

/-! ### The in-memory filesystem engine (`MemoryFs`, `src/memory_fs.ts`)

Stateful methods become functions `Fs → … → MemOut α × Fs`.  A thrown
JS exception (`invariant(...)` failing, `Optional.unwrap` on nothing)
is the `MemOut.panic` outcome; a *returned* `StoreErr` is `MemOut.err`.
`MemOut.fuelOut` is an artifact of embedding the recursive `rm` with
explicit fuel; it never occurs with sufficient fuel. -/

/-- Error codes of `StoreErr` (`src/store/errors.ts`); messages and the
structured `context` payloads are elided. -/
inductive StoreErrCode where
  | SYNTAX | SCHEMA | PARSE | INVARIANT | UNKNOWN
  | FILE_NOT_FOUND | FILE_EXISTS | NOT_A_FILE | DIR_NOT_FOUND | DIR_EXISTS
  | NOT_A_DIR | PATH_NOT_FOUND | PATH_EXISTS | PATH_UNAVAILABLE
  | UNSUPPORTED_OPERATION | READ_ONLY | QUOTA_EXCEEDED | INTERNAL
  deriving DecidableEq, Repr

/-- Outcome of one engine operation. -/
inductive MemOut (α : Type) where
  | ok (a : α)
  | err (e : StoreErrCode)
  | panic
  | fuelOut
  deriving DecidableEq, Repr

/-- `StoreNodeTime` (`src/store/store.ts`): four optional timestamps
(`Date` modelled as milliseconds). -/
structure StoreNodeTime where
  mtime : Option Nat := none
  atime : Option Nat := none
  ctime : Option Nat := none
  btime : Option Nat := none
  deriving DecidableEq, Repr

/-- All four stats set to the same timestamp (the literal the engine
builds at every node creation). -/
def allTimes (t : Nat) : StoreNodeTime :=
  { mtime := some t, atime := some t, ctime := some t, btime := some t }

/-- `{...old, ...patch}` of two `StoreNodeTime` values: a field present
in the patch wins, an absent one keeps the old value. -/
def mergeTimes (old patch : StoreNodeTime) : StoreNodeTime :=
  { mtime := match patch.mtime with | some v => some v | none => old.mtime
    atime := match patch.atime with | some v => some v | none => old.atime
    ctime := match patch.ctime with | some v => some v | none => old.ctime
    btime := match patch.btime with | some v => some v | none => old.btime }

/-- `FsNode` (`src/memory_fs.ts`): tagged union of file and directory. -/
inductive FsNode where
  | file (path content : String) (stats : StoreNodeTime)
  | dir (path : String) (children : List String) (stats : StoreNodeTime)
  deriving DecidableEq, Repr

def FsNode.path : FsNode → String
  | .file p _ _ => p
  | .dir p _ _ => p

def FsNode.stats : FsNode → StoreNodeTime
  | .file _ _ st => st
  | .dir _ _ st => st

/-- Mutate the `stats` record in place (JS `node.stats.x = v`). -/
def FsNode.withStats (f : StoreNodeTime → StoreNodeTime) : FsNode → FsNode
  | .file p c st => .file p c (f st)
  | .dir p ch st => .dir p ch (f st)

def FsNode.setAtime (t : Nat) (n : FsNode) : FsNode :=
  n.withStats (fun st => { st with atime := some t })

def FsNode.setMtime (t : Nat) (n : FsNode) : FsNode :=
  n.withStats (fun st => { st with mtime := some t })

/-- The engine state `Fs` (`{version, nodes, index}`).  `nodes` is a JS
array whose holes (`delete nodes[i]`) are `none`; `index` is the JS
object used as a string-keyed dictionary, in insertion order. -/
structure Fs where
  version : String
  nodes : List (Option FsNode)
  index : List (String × Nat)
  deriving DecidableEq, Repr

/-- Dictionary lookup `index[key]` (unique keys maintained by `idxSet`). -/
def idxLookup : List (String × Nat) → String → Option Nat
  | [], _ => none
  | (k, v) :: rest, key => if k = key then some v else idxLookup rest key

/-- Dictionary write `index[key] = value`. -/
def idxSet : List (String × Nat) → String → Nat → List (String × Nat)
  | [], key, value => [(key, value)]
  | (k, v) :: rest, key, value =>
    if k = key then (key, value) :: rest else (k, v) :: idxSet rest key value

/-- `StoreContext` (`src/store/store.ts`). -/
structure StoreContext where
  uri : String
  jail : String
  pwd : String
  deriving DecidableEq, Repr

/-- The JS value `this.getNode(path)` evaluates to: `null` when the index
has no entry, `undefined` when the indexed array slot is a hole or out of
bounds, or the node itself.  (`write` distinguishes `null` from
`undefined` via `parent === null`; everything else only tests truthiness
or `?.type`.) -/
inductive NodeRef where
  | null
  | undefined
  | node (n : FsNode)
  deriving DecidableEq, Repr

/-- JS default `Array.prototype.sort` string comparison (`<` on UTF-16
code units; identical to code-point order on the BMP). -/
def chLt : List Char → List Char → Bool
  | [], [] => false
  | [], _ :: _ => true
  | _ :: _, [] => false
  | a :: as, b :: bs =>
    if a.val < b.val then true
    else if b.val < a.val then false
    else chLt as bs

def jsLtStr (a b : String) : Bool := chLt a.data b.data

def jsLeStr (a b : String) : Bool := !jsLtStr b a

/-- JS `array.sort()` on strings (default comparator, ascending). -/
def jsSortStrings (l : List String) : List String :=
  List.insertionSort (fun a b => jsLeStr a b = true) l

namespace MemoryFs

/-- `getNode` (private). -/
def getNode (fs : Fs) (path : String) : NodeRef :=
  let resolvedPath := Path.resolve "/" path
  match idxLookup fs.index resolvedPath with
  | none => .null
  | some i =>
    match fs.nodes.get? i with
    | some (some n) => .node n
    | _ => .undefined

/-- The key `getParent` looks up: `dirname(resolve("/", path))`. -/
def parentKey (path : String) : String :=
  Path.dirname (Path.resolve "/" path)

/-- `getParent` (private). -/
def getParent (fs : Fs) (path : String) : NodeRef :=
  getNode fs (parentKey path)

/-- Embedding device for JS mutation through the alias returned by
`getNode`: rewrite the array slot the path's index entry points to.
Used only where the source holds such an alias. -/
def updateNode (fs : Fs) (path : String) (f : FsNode → FsNode) : Fs :=
  let resolvedPath := Path.resolve "/" path
  match idxLookup fs.index resolvedPath with
  | none => fs
  | some i =>
    match fs.nodes.get? i with
    | some (some n) => { fs with nodes := fs.nodes.set i (some (f n)) }
    | _ => fs

/-- `MemoryFs.empty(root, currentTime?)`: the `root` argument is unused
by the source; the tree always starts with the single directory `"/"`. -/
def empty (_root : String) (currentTime : Option Nat) (now : Nat) : Fs :=
  let time := currentTime.getD now
  { version := "0.1"
    nodes := [some (.dir "/" [] (allTimes time))]
    index := [("/", 0)] }

/-- `rebuildIndex` (private): sort the nodes array (JS sort moves the
holes behind all elements), then re-index; the `invariant(isSome(node))`
in the loop throws at the first hole — after every live node has already
been indexed. -/
def rebuildIndex (fs : Fs) : MemOut Unit × Fs :=
  let live := fs.nodes.filterMap id
  let sorted := List.insertionSort (fun a b => jsLtStr a.path b.path = true) live
  let holes := fs.nodes.length - live.length
  let fs' := { fs with
    nodes := sorted.map some ++ List.replicate holes none
    index := (sorted.foldl (fun p n => (idxSet p.1 n.path p.2, p.2 + 1)) ([], 0)).1 }
  if holes = 0 then (.ok (), fs') else (.panic, fs')

/-- `stats`. -/
structure StatsView where
  atime : Nat
  btime : Nat
  ctime : Nat
  mtime : Nat
  isFile : Bool
  isDirectory : Bool
  deriving DecidableEq, Repr

def stats (fs : Fs) (context : StoreContext) (path : String) (now : Nat) :
    MemOut StatsView × Fs :=
  let resolvedPath := Path.resolveWithinJail context.jail context.pwd path
  match getNode fs resolvedPath with
  | .node n =>
    (.ok { atime := n.stats.atime.getD now
           btime := n.stats.btime.getD now
           ctime := n.stats.ctime.getD now
           mtime := n.stats.mtime.getD now
           isFile := match n with | .file .. => true | .dir .. => false
           isDirectory := match n with | .dir .. => true | .file .. => false },
     fs)
  | _ => (.err .PATH_NOT_FOUND, fs)

/-- `read`: on success bumps the file's `atime` and then the parent
directory's `atime` (`Optional.unwrap` of the parent lookup throws when
the parent is missing). -/
def read (fs : Fs) (context : StoreContext) (filename : String) (now : Nat) :
    MemOut String × Fs :=
  let resolvedPath := Path.resolveWithinJail context.jail context.pwd filename
  match getNode fs resolvedPath with
  | .node (.file npath content _) =>
    let fs1 := updateNode fs resolvedPath (FsNode.setAtime now)
    match getNode fs1 (Path.dirname npath) with
    | .node _ => (.ok content, updateNode fs1 (Path.dirname npath) (FsNode.setAtime now))
    | _ => (.panic, fs1)
  | _ => (.err .FILE_NOT_FOUND, fs)

/-- `addNode` (private): install the node in `nodes`/`index`, then push
its path into the parent's `children`, re-sort them with the default
string sort, and bump the parent's `mtime`.  The two `invariant`s on the
parent lookup throw (`panic`) when the parent is missing or not a
directory. -/
def addNode (fs : Fs) (node : FsNode) (timestamp : Option Nat)
    (rebuildIndex? : Option Bool) (now : Nat) : MemOut Unit × Fs :=
  let rebuild := rebuildIndex?.getD false
  let ts := timestamp.getD now
  let fs1 := { fs with
    index := idxSet fs.index node.path fs.nodes.length
    nodes := fs.nodes ++ [some node] }
  match getNode fs1 (Path.dirname node.path) with
  | .node (.dir ppath children pstats) =>
    let fs2 := updateNode fs1 (Path.dirname node.path)
      (fun _ => .dir ppath (jsSortStrings (children ++ [node.path]))
        { pstats with mtime := some ts })
    if rebuild then rebuildIndex fs2 else (.ok (), fs2)
  | _ => (.panic, fs1)

/-- `hasPathAvailable` (private) walk: false as soon as a file occupies
a cumulative prefix of the path. -/
def hasPathAvailableAux (fs : Fs) : String → List String → Bool
  | _, [] => true
  | cur, part :: rest =>
    let cur' := Path.join [cur, part]
    match getNode fs cur' with
    | .node (.file ..) => false
    | _ => hasPathAvailableAux fs cur' rest

def hasPathAvailable (fs : Fs) (path : String) : Bool :=
  hasPathAvailableAux fs "/" (jsSplit path)

/-- `getPaths` (private): cumulative prefixes of `resolve("/", path)`. -/
def getPathsAux : String → List String → List String
  | _, [] => []
  | cur, part :: rest =>
    let cur' := Path.join [cur, part]
    cur' :: getPathsAux cur' rest

def getPaths (path : String) : List String :=
  getPathsAux "/" (jsSplit (Path.resolve "/" path))

/-- The creation loop of recursive `mkdir`: make a directory node at
every path of the chain that `getNode` reports as strictly `null`. -/
def mkdirLoop (fs : Fs) (paths : List String) (timestamp : Nat) (now : Nat) :
    MemOut Unit × Fs :=
  match paths with
  | [] => (.ok (), fs)
  | p :: rest =>
    match getNode fs p with
    | .null =>
      match addNode fs (.dir p [] (allTimes timestamp)) (some timestamp)
          (some false) now with
      | (.ok _, fs1) => mkdirLoop fs1 rest timestamp now
      | r => r
    | _ => mkdirLoop fs rest timestamp now

/-- `mkdir`. -/
def mkdir (fs : Fs) (context : StoreContext) (path : String)
    (recursive? : Option Bool) (timestamp? : Option Nat) (now : Nat) :
    MemOut Unit × Fs :=
  let resolvedPath := Path.resolveWithinJail context.jail context.pwd path
  let timestamp := timestamp?.getD now
  let recursive := recursive?.getD true
  match getNode fs resolvedPath with
  | .node (.file ..) => (.err .FILE_EXISTS, fs)
  | .node (.dir ..) => (.ok (), fs)
  | _ =>
    if !recursive then
      match getNode fs (Path.dirname resolvedPath) with
      | .node (.dir ..) =>
        addNode fs (.dir resolvedPath [] (allTimes timestamp)) (some timestamp)
          none now
      | _ => (.err .PATH_UNAVAILABLE, fs)
    else if !(hasPathAvailable fs resolvedPath) then
      (.err .PATH_UNAVAILABLE, fs)
    else
      match mkdirLoop fs (getPaths resolvedPath) timestamp now with
      | (.ok _, fs1) => rebuildIndex fs1
      | r => r

/-- `write`. -/
def write (fs : Fs) (context : StoreContext) (path content : String)
    (recursive? : Option Bool) (timestamp? : Option Nat) (now : Nat) :
    MemOut Unit × Fs :=
  let resolvedPath := Path.resolveWithinJail context.jail context.pwd path
  let timestamp := timestamp?.getD now
  let recursive := recursive?.getD true
  match getNode fs resolvedPath with
  | .node (.dir ..) => (.err .PATH_NOT_FOUND, fs)
  | .node (.file ..) =>
    let fs1 := updateNode fs resolvedPath (fun n =>
      match n with
      | .file p _ st => .file p content { st with mtime := some timestamp }
      | other => other)
    match getParent fs1 resolvedPath with
    | .node (.dir ..) =>
      (.ok (), updateNode fs1 (parentKey resolvedPath) (FsNode.setMtime timestamp))
    | _ => (.panic, fs1)
  | _ =>
    match getParent fs resolvedPath with
    | .null =>
      if recursive then
        match mkdir fs context (Path.dirname resolvedPath) (some recursive)
            (some timestamp) now with
        | (.ok _, fs1) =>
          match getParent fs1 resolvedPath with
          | .node (.dir ..) =>
            addNode fs1 (.file resolvedPath content (allTimes timestamp))
              (some timestamp) none now
          | _ => (.panic, fs1)
        | r => r
      else (.err .PATH_UNAVAILABLE, fs)
    | .node (.dir ..) =>
      addNode fs (.file resolvedPath content (allTimes timestamp))
        (some timestamp) none now
    | _ => (.err .PATH_UNAVAILABLE, fs)

/-- Continuation of the recursive directory branch of `rm`, after the
children loop: propagate a thrown error out of the loop, otherwise
delete the directory's own slot (leaving a hole), bump the parent's
`mtime` (parent computed from the *raw* `path` argument) and, when
`rebuild` is set, run `rebuildIndex`. -/
def rmFinish (loop : MemOut Unit × Fs) (npath path : String)
    (timestamp : Nat) (rebuild : Bool) : MemOut Unit × Fs :=
  match loop with
  | (MemOut.panic, fs1) => (.panic, fs1)
  | (MemOut.fuelOut, fs1) => (.fuelOut, fs1)
  | (_, fs1) =>
    match idxLookup fs1.index npath with
    | none => (.panic, fs1)
    | some i =>
      let fs2 := { fs1 with nodes := fs1.nodes.set i none }
      match getParent fs2 path with
      | .node (.dir ..) =>
        let fs3 := updateNode fs2 (parentKey path) (FsNode.setMtime timestamp)
        if rebuild then rebuildIndex fs3 else (.ok (), fs3)
      | _ => (.panic, fs2)

/-- `rm`, with explicit recursion fuel for the depth-first descent.
The file case deletes the array slot (leaving a hole), bumps the
parent's `mtime` (parent computed from the *raw* `path` argument), and
then — with `rebuildIndex` defaulted to `true` — `rebuildIndex` panics
on the hole just created.  The parent's `children` array is never
updated. -/
def rm : Nat → Fs → StoreContext → String → Option Bool → Option Nat →
    Option Bool → Nat → MemOut Unit × Fs
  | 0, fs, _, _, _, _, _, _ => (.fuelOut, fs)
  | fuel + 1, fs, context, path, recursive?, timestamp?, rebuildIndex?, now =>
    let resolvedPath := Path.resolveWithinJail context.jail context.pwd path
    let recursive := recursive?.getD false
    let timestamp := timestamp?.getD now
    let rebuild := rebuildIndex?.getD true
    match getNode fs resolvedPath with
    | .null => (.ok (), fs)
    | .undefined => (.ok (), fs)
    | .node (.file npath _ _) =>
      match idxLookup fs.index npath with
      | none => (.panic, fs)
      | some i =>
        let fs1 := { fs with nodes := fs.nodes.set i none }
        match getParent fs1 path with
        | .node (.dir ..) =>
          let fs2 := updateNode fs1 (parentKey path) (FsNode.setMtime timestamp)
          if rebuild then rebuildIndex fs2 else (.ok (), fs2)
        | _ => (.panic, fs1)
    | .node (.dir npath children _) =>
      if recursive then
        let loop := children.foldl (fun acc c =>
          match acc with
          | (MemOut.panic, _) => acc
          | (MemOut.fuelOut, _) => acc
          | (_, fsAcc) =>
            rm fuel fsAcc context c (some true) (some timestamp) (some false) now)
          (MemOut.ok (), fs)
        rmFinish loop npath path timestamp rebuild
      else (.err .DIR_EXISTS, fs)

/-- `readdir`: list the directory's `children`, each rendered relative
to the resolved path. -/
def readdir (fs : Fs) (context : StoreContext) (path : String) :
    MemOut (List String) × Fs :=
  let resolvedPath := Path.resolveWithinJail context.jail context.pwd path
  match getNode fs resolvedPath with
  | .node (.dir _ children _) =>
    (.ok (children.map (fun child => Path.relative resolvedPath child)), fs)
  | .node (.file ..) => (.err .NOT_A_DIR, fs)
  | _ => (.err .PATH_NOT_FOUND, fs)

/-- `rmdir`: the `options` argument (`recursive`, `timestamp`,
`rebuildIndex`) is accepted but never read by the source — an empty
directory is handed to plain `rm`, a non-empty one to
`rm(…, {recursive: true})` regardless of the caller's options. -/
def rmdir (fuel : Nat) (fs : Fs) (context : StoreContext) (path : String)
    (_recursive? : Option Bool) (_timestamp? : Option Nat)
    (_rebuildIndex? : Option Bool) (now : Nat) : MemOut Unit × Fs :=
  let resolvedPath := Path.resolveWithinJail context.jail context.pwd path
  match getNode fs resolvedPath with
  | .null => (.ok (), fs)
  | .undefined => (.ok (), fs)
  | .node (.dir _ children _) =>
    if children.length = 0 then rm fuel fs context path none none none now
    else rm fuel fs context path (some true) none none now
  | .node (.file ..) => (.err .PATH_NOT_FOUND, fs)

/-- `utimes`: merge the given partial stats over the node's stats. -/
def utimes (fs : Fs) (context : StoreContext) (path : String)
    (stats : StoreNodeTime) : MemOut Unit × Fs :=
  let resolvedPath := Path.resolveWithinJail context.jail context.pwd path
  match getNode fs resolvedPath with
  | .node _ =>
    (.ok (), updateNode fs resolvedPath
      (FsNode.withStats (fun old => mergeTimes old stats)))
  | _ => (.err .PATH_NOT_FOUND, fs)

end MemoryFs

/-! ### Serialization (`toJson` / `parse`)

`toJson` is `Json.stringify(this.fs)` and `parse` begins with
`StdJson.parse`; the JSON *text* codec is an external library
(`@std/jsonc` / `JSON.stringify`), out of scope per the spec, and is
elided: serialization is modelled at the level of the envelope value,
with `Date` fields rendered to their string encoding.  Array holes
serialize as JSON `null` (`none`); absent stats fields stay absent.
The `Date → string → Date` round trip (ISO-8601 in the source) is
modelled by an explicit decimal rendering with the same fidelity. -/

/-- Decimal digit character. -/
def digitChar (n : Nat) : Char :=
  if n = 0 then '0' else if n = 1 then '1' else if n = 2 then '2'
  else if n = 3 then '3' else if n = 4 then '4' else if n = 5 then '5'
  else if n = 6 then '6' else if n = 7 then '7' else if n = 8 then '8'
  else '9'

def digitVal (c : Char) : Nat :=
  if c = '0' then 0 else if c = '1' then 1 else if c = '2' then 2
  else if c = '3' then 3 else if c = '4' then 4 else if c = '5' then 5
  else if c = '6' then 6 else if c = '7' then 7 else if c = '8' then 8
  else 9

/-- Digits of `n`, most significant first (`fuel ≥ n + 1` suffices). -/
def natChars : Nat → Nat → List Char
  | 0, _ => []
  | fuel + 1, n =>
    if n < 10 then [digitChar n]
    else natChars fuel (n / 10) ++ [digitChar (n % 10)]

/-- Modelled from the spec: the string encoding of a `Date` timestamp
(ISO-8601 in the source; a faithful injective encoding with an exact
decoder is what `parse`'s `new Date(string)` revival relies on). -/
def encodeDate (n : Nat) : String := String.mk (natChars (n + 1) n)

/-- Modelled from the spec: `new Date(string)` on an encoded timestamp. -/
def decodeDate (s : String) : Nat :=
  s.data.foldl (fun acc c => acc * 10 + digitVal c) 0

/-- Stats with `Date` fields in their serialized string form. -/
structure SerTime where
  mtime : Option String := none
  atime : Option String := none
  ctime : Option String := none
  btime : Option String := none
  deriving DecidableEq, Repr

inductive SerNode where
  | file (path content : String) (stats : SerTime)
  | dir (path : String) (children : List String) (stats : SerTime)
  deriving DecidableEq, Repr

/-- The serialized envelope `{version, nodes, index}`. -/
structure SerFs where
  version : String
  nodes : List (Option SerNode)
  index : List (String × Nat)
  deriving DecidableEq, Repr

def serTime (t : StoreNodeTime) : SerTime :=
  { mtime := t.mtime.map encodeDate
    atime := t.atime.map encodeDate
    ctime := t.ctime.map encodeDate
    btime := t.btime.map encodeDate }

def serNode : FsNode → SerNode
  | .file p c st => .file p c (serTime st)
  | .dir p ch st => .dir p ch (serTime st)

/-- Date revival of `MemoryFs.parse`: wrap each present stats string in
`new Date(...)`. -/
def decTime (t : SerTime) : StoreNodeTime :=
  { mtime := t.mtime.map decodeDate
    atime := t.atime.map decodeDate
    ctime := t.ctime.map decodeDate
    btime := t.btime.map decodeDate }

def decNode : SerNode → FsNode
  | .file p c st => .file p c (decTime st)
  | .dir p ch st => .dir p ch (decTime st)

namespace MemoryFs

/-- `toJson()`: serialize the whole state verbatim. -/
def toJson (fs : Fs) : SerFs :=
  { version := fs.version
    nodes := fs.nodes.map (Option.map serNode)
    index := fs.index }

/-- `MemoryFs.parse`: accept only version `"0.1"`; the loop's
`invariant(isSome(node))` throws on a `null` nodes entry; otherwise
revive the `Date` fields and wrap the envelope unchanged (the `index`
is trusted as-is, not rebuilt). -/
def parse (content : SerFs) : MemOut Fs :=
  if content.version = "0.1" then
    if content.nodes.all Option.isSome then
      .ok { version := content.version
            nodes := content.nodes.map (Option.map decNode)
            index := content.index }
    else .panic
  else .err .SCHEMA

end MemoryFs

/-! ### The host-filesystem adapter (`src/store/file_store.ts`)

Host I/O (`node:fs/promises`) is external; each adapter operation is
modelled by the path it hands to its host primitive, so that the
routing of paths through `resolveWithinJail` is checkable. -/

namespace FileStore

/-- `resolve({jail, pwd}, path)` from `src/store/file_store.ts`
(`home` stands for `homedir()`). -/
def resolve (home : String) (context : StoreContext) (path : String) : String :=
  let fixedPwd :=
    if jsStartsWith context.pwd "~" then
      Path.join [home, String.mk context.pwd.data.tail]
    else context.pwd
  let fixedPath :=
    if jsStartsWith path "~" then home ++ "/" ++ String.mk path.data.tail
    else path
  Path.resolveWithinJail context.jail fixedPwd fixedPath

/-- `read`: `FS.readFile(jailedPath, …)`. -/
def readHostPath (home : String) (context : StoreContext) (path : String) : String :=
  resolve home context path

/-- `readdir`: `FS.readdir(jailedPath, …)`. -/
def readdirHostPath (home : String) (context : StoreContext) (path : String) : String :=
  resolve home context path

/-- `rm`: computes `jailedPath` but calls `FS.rm(path, options)` on the
raw argument. -/
def rmHostPath (home : String) (context : StoreContext) (path : String) : String :=
  let jailedPath := resolve home context path
  let _ := jailedPath
  path

/-- `rmdir`: computes `jailedPath` but calls `FS.rmdir(path, options)`
on the raw argument. -/
def rmdirHostPath (home : String) (context : StoreContext) (path : String) : String :=
  let jailedPath := resolve home context path
  let _ := jailedPath
  path

/-- `mkdir`: `FS.mkdir(jailedPath, …)`. -/
def mkdirHostPath (home : String) (context : StoreContext) (path : String) : String :=
  resolve home context path

/-- `writeFile`: `FS.writeFile(jailedPath, …)`. -/
def writeFileHostPath (home : String) (context : StoreContext) (path : String) : String :=
  resolve home context path

/-- `stats`: `FS.stat(jailedPath)`. -/
def statsHostPath (home : String) (context : StoreContext) (path : String) : String :=
  resolve home context path

/-- `utimes`: `FS.utimes(jailedPath, …)`. -/
def utimesHostPath (home : String) (context : StoreContext) (path : String) : String :=
  resolve home context path

/-- `isNumberic` (sic): regex `/^[0-9]+$/`. -/
def isNumberic (s : String) : Bool :=
  decide (s.data ≠ []) && s.data.all (fun c => '0' ≤ c && c ≤ '9')

/-- JS `parseInt` on an all-digit string. -/
def parseIntDigits (s : String) : Nat :=
  s.data.foldl (fun acc c => acc * 10 + digitVal c) 0

/-- The readdir comparator of the file backend, as the relation
“compares ≤ 0”: two all-digit names compare as integers
(`parseInt(a) - parseInt(b)`), anything else as `a < b ? -1 : 1`. -/
def readdirLe (a b : String) : Bool :=
  if isNumberic a && isNumberic b then parseIntDigits a ≤ parseIntDigits b
  else jsLtStr a b

/-- `children.sort(comparator)` inside the file backend's `readdir`. -/
def sortChildren (l : List String) : List String :=
  List.insertionSort (fun a b => readdirLe a b = true) l

end FileStore

/-! ### The blob-persisted adapter (`webStore`, `src/web_store.ts`)

`Storage` is modelled as an association list of slots; slot values hold
the serialized envelope (the JSON text codec is elided as for
`toJson`/`parse`).  The source's options field is named `prefix`. -/

namespace WebStore

structure Options where
  pwd : Option String := none
  uri : Option String := none
  jail : Option String := none
  keyPrefix : Option String := none
  deriving DecidableEq, Repr

/-- `storage.getItem(key)`. -/
def jsGetItem (storage : List (String × SerFs)) (key : String) : Option SerFs :=
  match storage with
  | [] => none
  | (k, v) :: rest => if k = key then some v else jsGetItem rest key

/-- `storage.setItem(key, value)`. -/
def jsSetItem (storage : List (String × SerFs)) (key : String) (value : SerFs) :
    List (String × SerFs) :=
  match storage with
  | [] => [(key, value)]
  | (k, v) :: rest =>
    if k = key then (key, value) :: rest else (k, v) :: jsSetItem rest key value

/-- The key the constructor reads: the source passes the *string
literal* `"prefix"` to `storage.getItem`, not the `prefix` variable. -/
def loadKey : String := "prefix"

/-- The key `save()` writes: `storage.setItem(prefix, …)` with
`prefix = options?.prefix ?? ""`. -/
def saveKey (options : Options) : String := options.keyPrefix.getD ""

/-- The `pwd` the constructor computes. -/
def initPwd (options : Options) : String :=
  let jail := options.jail.getD "/"
  Path.resolveWithinJail jail jail (options.pwd.getD "/")

/-- The engine the constructor builds: parse the slot named by `loadKey`
(falling back to an empty tree when the slot is absent or the parse
returns an error; a thrown parse invariant propagates). -/
def initMemory (storage : List (String × SerFs)) (options : Options) (now : Nat) :
    MemOut Fs :=
  let pwd := initPwd options
  match jsGetItem storage loadKey with
  | some content =>
    match MemoryFs.parse content with
    | .ok fs => .ok fs
    | .err _ => .ok (MemoryFs.empty pwd none now)
    | .panic => .panic
    | .fuelOut => .fuelOut
  | none => .ok (MemoryFs.empty pwd none now)

/-- `save()`: serialize the whole tree into the slot named by `saveKey`
(run after every successful mutating operation and every successful
read). -/
def save (storage : List (String × SerFs)) (options : Options) (fs : Fs) :
    List (String × SerFs) :=
  jsSetItem storage (saveKey options) (MemoryFs.toJson fs)

end WebStore

/-- The outcome/state pair `r` of an operation run on initial state `fs`
leaves the state untouched whenever the outcome is a returned typed
error. -/
def ErrFrame {α : Type} (r : MemOut α × Fs) (fs : Fs) : Prop :=
  ∀ e, r.1 = MemOut.err e → r.2 = fs

/-- Lookup at an already-resolved key: the value `MemoryFs.getNode fs q`
takes once `q`'s resolution against `"/"` is known to be `k`. -/
def getKey (fs : Fs) (k : String) : NodeRef :=
  match idxLookup fs.index k with
  | none => .null
  | some i =>
    match fs.nodes.get? i with
    | some (some n) => .node n
    | _ => .undefined

/-- Well-formedness of an engine state, maintained by every state the
engine reaches without a thrown invariant: `nodes` has no holes, every
index entry points at a live node carrying the entry's key as its
`path`, and every node is indexed at its own position. -/
def wfFs (fs : Fs) : Bool :=
  fs.nodes.all (fun slot => slot.isSome) &&
  (fs.index.all (fun p =>
    match fs.nodes.get? p.2 with
    | some (some n) => decide (n.path = p.1)
    | _ => false)) &&
  ((List.range fs.nodes.length).all (fun i =>
    match fs.nodes.get? i with
    | some (some n) => decide (idxLookup fs.index n.path = some i)
    | _ => false))

/-- The association list built by the re-indexing loop of
`rebuildIndex`: each node's path mapped to its position, counting
from `s`. -/
def buildEntries : Nat → List FsNode → List (String × Nat)
  | _, [] => []
  | s, n :: rest => (n.path, s) :: buildEntries (s + 1) rest

/-- Component lists that are nonempty, slash-free and not `"."` (the
shape `resolve` produces): exactly the components `Path.join` keeps. -/
def PlainComps (l : List String) : Prop :=
  ∀ s ∈ l, s ≠ "" ∧ s ≠ "." ∧ '/' ∉ s.data

instance (l : List String) : Decidable (PlainComps l) := by
  unfold PlainComps; infer_instance

/-- The cumulative clean absolute paths `getPaths` walks below a base
component chain `M`. -/
def chainFrom (M : List String) : List String → List String
  | [] => []
  | x :: rest => renderAbs (M ++ [x]) :: chainFrom (M ++ [x]) rest

end Denzai

/-! ### Lemmas about the path algebra -/

namespace Denzai

theorem mk_data (s : String) : String.mk s.data = s := by
  cases s; rfl

theorem joinData_nil : joinData [] = [] := rfl

theorem joinData_single (a : String) : joinData [a] = a.data := rfl

theorem joinData_cons (a : String) {l : List String} (h : l ≠ []) :
    joinData (a :: l) = a.data ++ '/' :: joinData l := by
  cases l with
  | nil => exact absurd rfl h
  | cons b t =>
    show (a ++ "/" ++ jsJoinSlash (b :: t)).data = _
    simp [String.data_append, joinData]

theorem joinData_append : ∀ {l1 l2 : List String}, l1 ≠ [] → l2 ≠ [] →
    joinData (l1 ++ l2) = joinData l1 ++ '/' :: joinData l2
  | [], _, h1, _ => absurd rfl h1
  | [a], l2, _, h2 => by
    cases l2 with
    | nil => exact absurd rfl h2
    | cons b s =>
      rw [List.singleton_append, joinData_cons _ (List.cons_ne_nil _ _),
        joinData_single]
  | a :: c :: u, l2, _, h2 => by
    rw [List.cons_append, joinData_cons _ (by simp),
      joinData_cons _ (List.cons_ne_nil _ _),
      joinData_append (List.cons_ne_nil _ _) h2]
    simp

theorem renderAbs_data (l : List String) :
    (renderAbs l).data = '/' :: joinData l := by
  simp [renderAbs, String.data_append, joinData]

theorem mem_dropLast {α : Type} {l : List α} {a : α} (h : a ∈ l.dropLast) :
    a ∈ l := by
  induction l with
  | nil => simpa using h
  | cons b t ih =>
    cases t with
    | nil => simpa using h
    | cons c u =>
      rw [List.dropLast_cons₂] at h
      rcases List.mem_cons.mp h with h' | h'
      · exact h' ▸ List.mem_cons_self _ _
      · exact List.mem_cons_of_mem _ (ih h')

theorem collapseAux_noSlash_append {cs : List Char} (hne : cs ≠ [])
    (h : ∀ c ∈ cs, c ≠ '/') :
    ∀ (b : Bool) (rest : List Char),
      collapseAux b (cs ++ rest) = cs ++ collapseAux false rest := by
  induction cs with
  | nil => exact absurd rfl hne
  | cons c t ih =>
    intro b rest
    have hc : c ≠ '/' := h c (List.mem_cons_self _ _)
    rw [List.cons_append, collapseAux]
    simp only [hc, if_false]
    cases t with
    | nil => rfl
    | cons d u =>
      rw [ih (List.cons_ne_nil _ _) (fun e he => h e (List.mem_cons_of_mem _ he))]
      rfl

theorem collapseAux_joinData {l : List String} (hl : GoodComps l)
    (hne : l ≠ []) :
    ∀ (b : Bool) (suffix : List Char),
      collapseAux b (joinData l ++ suffix) =
        joinData l ++ collapseAux false suffix := by
  induction l with
  | nil => exact absurd rfl hne
  | cons a t ih =>
    intro b suffix
    have ha := hl a (List.mem_cons_self _ _)
    have hnoslash : ∀ d ∈ a.data, d ≠ '/' := fun d hd he => ha.2 (he ▸ hd)
    have hadata : a.data ≠ [] := fun h => ha.1 (String.ext h)
    cases t with
    | nil =>
      rw [joinData_single]
      exact collapseAux_noSlash_append hadata hnoslash b suffix
    | cons c u =>
      rw [joinData_cons _ (List.cons_ne_nil _ _), List.append_assoc,
        collapseAux_noSlash_append hadata hnoslash b, List.cons_append,
        collapseAux]
      simp only [if_pos rfl, Bool.false_eq_true, if_false]
      rw [ih (fun s hs => hl s (List.mem_cons_of_mem _ hs))
        (List.cons_ne_nil _ _) true suffix]
      simp

theorem collapse_master {l : List String} (hl : GoodComps l) (hne : l ≠ []) :
    ∀ suffix, collapseCh ('/' :: joinData l ++ suffix) =
      '/' :: joinData l ++ collapseCh suffix := by
  intro suffix
  rw [collapseCh, List.cons_append, collapseAux]
  simp only [if_pos rfl, Bool.false_eq_true, if_false]
  rw [collapseAux_joinData hl hne true suffix]
  rfl

theorem collapse_renderAbs {l : List String} (hl : GoodComps l) :
    collapseCh (renderAbs l).data = (renderAbs l).data := by
  cases l with
  | nil => decide
  | cons a t =>
    rw [renderAbs_data]
    have := collapse_master hl (List.cons_ne_nil _ _) []
    simpa [collapseCh, collapseAux] using this

theorem getLast_ne_slash {cs : List Char}
    (h : ∀ c ∈ cs, c ≠ '/') : ∀ c, cs.getLast? = some c → c ≠ '/' := by
  intro c hc
  have hmem : c ∈ cs := by
    have := List.dropLast_append_getLast? c (Option.mem_def.mpr hc)
    exact this ▸ List.mem_append_right _ (List.mem_singleton.mpr rfl)
  exact h c hmem

theorem joinData_ne_nil {l : List String} (hl : GoodComps l) (hne : l ≠ []) :
    joinData l ≠ [] := by
  cases l with
  | nil => exact absurd rfl hne
  | cons a t =>
    have ha := hl a (List.mem_cons_self _ _)
    obtain ⟨c, cs, hcs⟩ : ∃ c cs, a.data = c :: cs := by
      cases hd : a.data with
      | nil => exact absurd (String.ext hd) ha.1
      | cons c cs => exact ⟨c, cs, rfl⟩
    cases t with
    | nil => rw [joinData_single, hcs]; simp
    | cons b u => rw [joinData_cons _ (List.cons_ne_nil _ _), hcs]; simp

theorem joinData_no_slash_last {l : List String} (hl : GoodComps l)
    (hne : l ≠ []) : ∀ c, (joinData l).getLast? = some c → c ≠ '/' := by
  induction l with
  | nil => exact absurd rfl hne
  | cons a t ih =>
    cases t with
    | nil =>
      rw [joinData_single]
      intro c hc
      have ha := hl a (List.mem_cons_self _ _)
      exact getLast_ne_slash (fun d hd he => ha.2 (he ▸ hd)) c hc
    | cons b u =>
      rw [joinData_cons _ (List.cons_ne_nil _ _)]
      intro c hc
      have hjoin : joinData (b :: u) ≠ [] :=
        joinData_ne_nil (fun s hs => hl s (List.mem_cons_of_mem _ hs))
          (List.cons_ne_nil _ _)
      rw [List.getLast?_append_of_ne_nil _ (by simp)] at hc
      rw [show ('/' :: joinData (b :: u)) = ['/'] ++ joinData (b :: u) from rfl,
        List.getLast?_append_of_ne_nil _ hjoin] at hc
      exact ih (fun s hs => hl s (List.mem_cons_of_mem _ hs))
        (List.cons_ne_nil _ _) c hc

theorem stripTrail_eq_self {s : String}
    (h : ∀ c, s.data.getLast? = some c → c ≠ '/') : stripTrail s = s := by
  unfold stripTrail
  rw [if_neg]
  intro heq
  exact h '/' heq rfl

theorem stripTrail_of_last_slash {s : String}
    (h : s.data.getLast? = some '/') :
    stripTrail s = String.mk s.data.dropLast := by
  unfold stripTrail
  rw [if_pos h]

theorem stripTrail_renderAbs {l : List String} (hl : GoodComps l)
    (hne : l ≠ []) : stripTrail (renderAbs l) = renderAbs l := by
  apply stripTrail_eq_self
  intro c hc
  rw [renderAbs_data] at hc
  have hjoin := joinData_ne_nil hl hne
  rw [show ('/' :: joinData l) = ['/'] ++ joinData l by rfl,
    List.getLast?_append_of_ne_nil _ hjoin] at hc
  exact joinData_no_slash_last hl hne c hc

theorem renderAbs_ne_empty (l : List String) : renderAbs l ≠ "" := by
  intro h
  have hdata := congrArg String.data h
  rw [renderAbs_data] at hdata
  exact List.cons_ne_nil _ _ hdata

theorem cleanPath_renderAbs {l : List String} (hl : GoodComps l) :
    Path.cleanPath (renderAbs l) = renderAbs l := by
  cases l with
  | nil => decide
  | cons a t =>
    unfold Path.cleanPath
    rw [collapse_renderAbs hl, mk_data,
      stripTrail_renderAbs hl (List.cons_ne_nil _ _),
      if_neg (renderAbs_ne_empty _)]

theorem splitCh_ne_nil (cs : List Char) : splitCh cs ≠ [] := by
  cases cs with
  | nil => simp [splitCh]
  | cons c rest =>
    unfold splitCh
    split
    · simp
    · split <;> simp

theorem splitCh_no_slash :
    ∀ (cs : List Char), ∀ p ∈ splitCh cs, ∀ c ∈ p, c ≠ '/' := by
  intro cs
  induction cs with
  | nil =>
    intro p hp c hc
    simp [splitCh] at hp
    subst hp
    simp at hc
  | cons d rest ih =>
    intro p hp c hc
    unfold splitCh at hp
    by_cases hd : d = '/'
    · rw [if_pos hd] at hp
      rcases List.mem_cons.mp hp with h | h
      · subst h; simp at hc
      · exact ih p h c hc
    · rw [if_neg hd] at hp
      cases hs : splitCh rest with
      | nil => exact absurd hs (splitCh_ne_nil rest)
      | cons h t =>
        rw [hs] at hp
        rcases List.mem_cons.mp hp with h' | h'
        · subst h'
          rcases List.mem_cons.mp hc with h'' | h''
          · exact h'' ▸ hd
          · exact ih h (hs ▸ List.mem_cons_self _ _) c h''
        · exact ih p (hs ▸ List.mem_cons_of_mem _ h') c hc

theorem jsSplit_no_slash {s : String} : ∀ p ∈ jsSplit s, '/' ∉ p.data := by
  intro p hp
  simp only [jsSplit, List.mem_map] at hp
  obtain ⟨l, hl, rfl⟩ := hp
  intro hmem
  exact splitCh_no_slash s.data l hl '/' hmem rfl

theorem goodComps_append {l1 l2 : List String}
    (h1 : GoodComps l1) (h2 : GoodComps l2) : GoodComps (l1 ++ l2) := by
  intro s hs
  rcases List.mem_append.mp hs with h | h
  · exact h1 s h
  · exact h2 s h

theorem resolveStep_good {bp : List String} (hbp : GoodComps bp)
    {part : String} (hpart : '/' ∉ part.data) :
    GoodComps (Path.resolveStep bp part) := by
  unfold Path.resolveStep
  split
  · intro s hs; exact hbp s (mem_dropLast hs)
  · split
    · rename_i hcond
      intro s hs
      rcases List.mem_append.mp hs with h | h
      · exact hbp s h
      · rw [List.mem_singleton.mp h]
        refine ⟨?_, hpart⟩
        intro he
        simp [he] at hcond
    · exact fun s hs => hbp s hs

theorem foldl_resolveStep_good {parts : List String}
    (hparts : ∀ p ∈ parts, '/' ∉ p.data) :
    ∀ {bp : List String}, GoodComps bp →
      GoodComps (parts.foldl Path.resolveStep bp) := by
  induction parts with
  | nil => intro bp hbp; exact hbp
  | cons p rest ih =>
    intro bp hbp
    rw [List.foldl_cons]
    exact ih (fun q hq => hparts q (List.mem_cons_of_mem _ hq))
      (resolveStep_good hbp (hparts p (List.mem_cons_self _ _)))

theorem resolveParts_good (basePath relativePath : String) :
    GoodComps (resolveParts basePath relativePath) := by
  unfold resolveParts
  refine foldl_resolveStep_good (fun p hp => jsSplit_no_slash p hp) ?_
  intro s hs
  rw [List.mem_filter] at hs
  exact ⟨by simpa using hs.2, jsSplit_no_slash s hs.1⟩

theorem resolve_eq_renderAbs {basePath relativePath : String}
    (hrel : Path.isRelative relativePath = true) :
    Path.resolve basePath relativePath =
      renderAbs (resolveParts basePath relativePath) := by
  have habs : Path.isAbsolute relativePath = false := by
    simpa [Path.isRelative] using hrel
  unfold Path.resolve
  rw [if_neg (by simp [habs])]
  have hre : ("/" ++ jsJoinSlash (resolveParts basePath relativePath)) =
      renderAbs (resolveParts basePath relativePath) := rfl
  simp only [resolveParts] at hre ⊢
  rw [hre]
  exact cleanPath_renderAbs (resolveParts_good basePath relativePath)

theorem isAbsolute_renderAbs (l : List String) :
    Path.isAbsolute (renderAbs l) = true := by
  have hd : (renderAbs l).data = '/' :: joinData l := renderAbs_data l
  simp [Path.isAbsolute, jsStartsWith, hd, List.isPrefixOf]

theorem withinJail_renderAbs (jail : String) (l : List String) :
    Path.withinJail jail (renderAbs l) = jsStartsWith (renderAbs l) jail := by
  simp [Path.withinJail, Path.isRelative, isAbsolute_renderAbs]

theorem renderAbs_ne_root {l : List String} (hl : GoodComps l)
    (hne : l ≠ []) : renderAbs l ≠ "/" := by
  intro h
  have hdata := congrArg String.data h
  rw [renderAbs_data] at hdata
  have hjoin : joinData l = [] := by
    have h2 : ('/' :: joinData l) = ['/'] := hdata.trans (by decide)
    simpa using h2
  exact joinData_ne_nil hl hne hjoin

theorem startsWith_renderAbs_append (jc l : List String) :
    jsStartsWith (renderAbs (jc ++ l)) (renderAbs jc) = true := by
  rw [jsStartsWith, List.isPrefixOf_iff_prefix]
  cases hl : l with
  | nil => simp
  | cons b u =>
    cases hjc : jc with
    | nil =>
      rw [renderAbs_data]
      show ("/").data <+: _
      exact ⟨joinData (b :: u), rfl⟩
    | cons a t =>
      rw [renderAbs_data, renderAbs_data,
        joinData_append (List.cons_ne_nil _ _) (List.cons_ne_nil _ _)]
      exact ⟨'/' :: joinData (b :: u), by simp⟩

theorem not_startsWith_root {jc : List String} (hjc : GoodComps jc)
    (hne : jc ≠ []) : jsStartsWith "/" (renderAbs jc) = false := by
  rw [jsStartsWith, renderAbs_data]
  cases hd : joinData jc with
  | nil => exact absurd hd (joinData_ne_nil hjc hne)
  | cons c t =>
    show List.isPrefixOf ('/' :: c :: t) ['/'] = false
    simp [List.isPrefixOf]

theorem collapse_jail_prepend_cons {jc l : List String} (hjc : GoodComps jc)
    (hjcne : jc ≠ []) (hl : GoodComps l) (hlne : l ≠ []) :
    String.mk (collapseCh (renderAbs jc ++ "/" ++ renderAbs l).data) =
      renderAbs (jc ++ l) := by
  have hdata : (renderAbs jc ++ "/" ++ renderAbs l).data =
      '/' :: joinData jc ++ ('/' :: '/' :: joinData l) := by
    simp [String.data_append, renderAbs_data]
  rw [hdata]
  rw [collapse_master hjc hjcne ('/' :: '/' :: joinData l)]
  have hsuffix : collapseCh ('/' :: '/' :: joinData l) = '/' :: joinData l := by
    show collapseAux false _ = _
    rw [collapseAux]
    simp only [if_pos rfl, Bool.false_eq_true, if_false]
    rw [collapseAux]
    simp only [if_pos rfl, if_true]
    have h3 := collapseAux_joinData hl hlne true []
    simpa [collapseAux] using h3
  rw [hsuffix]
  have hjd : '/' :: joinData jc ++ '/' :: joinData l =
      (renderAbs (jc ++ l)).data := by
    rw [renderAbs_data, joinData_append hjcne hlne]
    simp
  rw [hjd, mk_data]

theorem collapse_jail_prepend_nil {jc : List String} (hjc : GoodComps jc)
    (hjcne : jc ≠ []) :
    String.mk (collapseCh (renderAbs jc ++ "/" ++ renderAbs []).data) =
      renderAbs jc ++ "/" := by
  have hdata : (renderAbs jc ++ "/" ++ renderAbs []).data =
      '/' :: joinData jc ++ ['/', '/'] := by
    simp [String.data_append, renderAbs_data, joinData_nil]
  rw [hdata, collapse_master hjc hjcne ['/', '/']]
  have hsuffix : collapseCh ['/', '/'] = ['/'] := by decide
  rw [hsuffix]
  have hjd : '/' :: joinData jc ++ ['/'] = (renderAbs jc ++ "/").data := by
    simp [String.data_append, renderAbs_data]
  rw [hjd, mk_data]

theorem append_slash_ne_root {jc : List String} (hjc : GoodComps jc)
    (hne : jc ≠ []) : renderAbs jc ++ "/" ≠ "/" := by
  intro h
  have hdata := congrArg String.data h
  rw [String.data_append, renderAbs_data] at hdata
  rw [show ("/").data = ['/'] from by decide] at hdata
  have h2 : joinData jc ++ ['/'] = [] := by
    have := List.cons.injEq '/' (joinData jc ++ ['/']) '/' [] ▸ hdata
    simpa using hdata
  simp at h2

theorem stripTrail_append_slash (s : String) :
    stripTrail (s ++ "/") = s := by
  unfold stripTrail
  have hdata : (s ++ "/").data = s.data ++ ['/'] := by
    rw [String.data_append]
  rw [hdata]
  rw [if_pos (by rw [List.getLast?_concat])]
  rw [List.dropLast_concat, mk_data]

theorem renderAbs_nil_eq_root : renderAbs [] = "/" := by decide

theorem isRelative_of_head_ne_slash {s : String} {c : Char} {t : List Char}
    (hd : s.data = c :: t) (hc : c ≠ '/') : Path.isRelative s = true := by
  simp [Path.isRelative, Path.isAbsolute, jsStartsWith, hd]
  show List.isPrefixOf ("/").data (c :: t) = false
  rw [show ("/").data = ['/'] from by decide]
  simp [List.isPrefixOf]
  exact fun h => absurd h.symm hc

theorem dotsPath_succ_data (n : Nat) :
    (dotsPath (n + 2)).data = '.' :: '.' :: '/' :: (dotsPath (n + 1)).data := by
  show (jsJoinSlash (List.replicate (n + 2) "..")).data = _
  rw [List.replicate_succ]
  have hrep : List.replicate (n + 1) ".." = ".." :: List.replicate n ".." :=
    List.replicate_succ ..
  rw [hrep]
  show ((".." : String) ++ "/" ++ jsJoinSlash (".." :: List.replicate n "..")).data = _
  rw [String.data_append, String.data_append]
  rw [show ("..").data = ['.', '.'] from by decide,
    show ("/").data = ['/'] from by decide]
  rw [← hrep]
  rfl

theorem isRelative_dotsPath (n : Nat) : Path.isRelative (dotsPath n) = true := by
  match n with
  | 0 => decide
  | 1 => decide
  | n + 2 => exact isRelative_of_head_ne_slash (dotsPath_succ_data n) (by decide)

theorem splitCh_two_dots (t : List Char) :
    splitCh ('.' :: '.' :: '/' :: t) = ['.', '.'] :: splitCh t := by
  have h1 : splitCh ('/' :: t) = [] :: splitCh t := by
    rw [splitCh]
    simp
  have h2 : splitCh ('.' :: '/' :: t) = ['.'] :: splitCh t := by
    rw [splitCh]
    simp only [if_neg (by decide : ¬ ('.' : Char) = '/')]
    rw [h1]
  rw [splitCh]
  simp only [if_neg (by decide : ¬ ('.' : Char) = '/')]
  rw [h2]

theorem jsSplit_dots : ∀ n : Nat, jsSplit (dotsPath (n + 1)) = List.replicate (n + 1) ".."
  | 0 => by decide
  | n + 1 => by
    have ih := jsSplit_dots n
    unfold jsSplit
    rw [dotsPath_succ_data n, splitCh_two_dots]
    rw [List.map_cons]
    unfold jsSplit at ih
    rw [ih]
    rw [show String.mk ['.', '.'] = ".." from by decide]
    rw [show List.replicate (n + 1 + 1) ".." = ".." :: List.replicate (n + 1) ".." from List.replicate_succ ..]

theorem fold_dots :
    ∀ (n : Nat) {bp : List String}, bp.length ≤ n →
      (List.replicate n "..").foldl Path.resolveStep bp = [] := by
  intro n
  induction n with
  | zero =>
    intro bp hbp
    rw [List.length_eq_zero.mp (Nat.le_zero.mp hbp)]
    rfl
  | succ n ih =>
    intro bp hbp
    rw [List.replicate_succ, List.foldl_cons]
    have hstep : Path.resolveStep bp ".." = bp.dropLast := by
      simp [Path.resolveStep]
    rw [hstep]
    refine ih ?_
    rw [List.length_dropLast]
    omega

theorem resolveParts_dots {basePath : String} {n : Nat}
    (h : depth basePath ≤ n) : resolveParts basePath (dotsPath n) = [] := by
  cases n with
  | zero =>
    have hbp : ((jsSplit basePath).filter (fun part => part ≠ "")) = [] :=
      List.length_eq_zero.mp (Nat.le_zero.mp h)
    unfold resolveParts
    rw [show dotsPath 0 = "" from rfl, show jsSplit "" = [""] from by decide, hbp]
    rfl
  | succ n =>
    unfold resolveParts
    rw [jsSplit_dots n]
    exact fold_dots (n + 1) h

theorem resolve_dots {basePath : String} {n : Nat}
    (h : depth basePath ≤ n) : Path.resolve basePath (dotsPath n) = "/" := by
  rw [resolve_eq_renderAbs (isRelative_dotsPath n), resolveParts_dots h,
    renderAbs_nil_eq_root]

theorem jsStartsWith_self (s : String) : jsStartsWith s s = true := by
  simp [jsStartsWith, List.isPrefixOf_iff_prefix]

/-- Value of `resolveWithinJail` once the resolved path is known to be
the clean absolute path with components `L`. -/
theorem rwj_value {jc L : List String} (hjc : GoodComps jc) (hL : GoodComps L)
    (basePath path : String)
    (hres : Path.resolve basePath path = renderAbs L) :
    Path.resolveWithinJail (renderAbs jc) basePath path =
      if Path.withinJail (renderAbs jc) (renderAbs L) = true then renderAbs L
      else if L = [] then renderAbs jc
      else renderAbs (jc ++ L) := by
  simp only [Path.resolveWithinJail]
  rw [hres]
  by_cases hw : Path.withinJail (renderAbs jc) (renderAbs L) = true
  · rw [if_pos hw, if_pos hw]
    by_cases hLnil : L = []
    · subst hLnil
      rw [renderAbs_nil_eq_root, if_pos rfl]
    · rw [if_neg (renderAbs_ne_root hL hLnil), stripTrail_renderAbs hL hLnil]
  · rw [if_neg hw, if_neg hw]
    have hjcne : jc ≠ [] := by
      intro h
      subst h
      refine hw ?_
      rw [withinJail_renderAbs, renderAbs_nil_eq_root]
      exact isAbsolute_renderAbs L
    by_cases hLnil : L = []
    · subst hLnil
      rw [collapse_jail_prepend_nil hjc hjcne,
        if_neg (append_slash_ne_root hjc hjcne), stripTrail_append_slash,
        if_pos rfl]
    · rw [collapse_jail_prepend_cons hjc hjcne hL hLnil]
      have hne : jc ++ L ≠ [] := by simp [hLnil]
      have hgood := goodComps_append hjc hL
      rw [if_neg (renderAbs_ne_root hgood hne), stripTrail_renderAbs hgood hne,
        if_neg hLnil]

/-- C1 (amended).  For every jail `J` given as a clean absolute path:
(a) for every base path and every *relative* path argument the result of
`resolveWithinJail` starts with `J` (the containment notion used by
`withinJail` itself); (b) when the number of `..` segments reaches or
exceeds the depth of `basePath` relative to the filesystem root `/`
(not relative to `J`, as the original claim said), the result is exactly
`J` itself. -/
theorem c1_jail_containment_amended (jc : List String) (hjc : GoodComps jc) :
    (∀ (basePath path : String), Path.isRelative path = true →
      jsStartsWith (Path.resolveWithinJail (renderAbs jc) basePath path)
        (renderAbs jc) = true) ∧
    (∀ (basePath : String) (n : Nat), depth basePath ≤ n →
      Path.resolveWithinJail (renderAbs jc) basePath (dotsPath n) =
        renderAbs jc) := by
  constructor
  · intro basePath path hrel
    have hres := @resolve_eq_renderAbs basePath path hrel
    have hL := resolveParts_good basePath path
    rw [rwj_value hjc hL basePath path hres]
    by_cases hw : Path.withinJail (renderAbs jc) (renderAbs (resolveParts basePath path)) = true
    · rw [if_pos hw]
      rw [withinJail_renderAbs] at hw
      exact hw
    · rw [if_neg hw]
      by_cases hLnil : resolveParts basePath path = []
      · rw [if_pos hLnil]
        exact jsStartsWith_self _
      · rw [if_neg hLnil]
        exact startsWith_renderAbs_append jc _
  · intro basePath n hn
    have hres : Path.resolve basePath (dotsPath n) = renderAbs [] := by
      rw [resolve_eq_renderAbs (isRelative_dotsPath n), resolveParts_dots hn]
    have hL : GoodComps ([] : List String) := by intro s hs; simp at hs
    rw [rwj_value hjc hL basePath (dotsPath n) hres]
    cases hjcnil : jc with
    | nil =>
      rw [if_pos ?_]
      subst hjcnil
      rw [withinJail_renderAbs, renderAbs_nil_eq_root]
      exact isAbsolute_renderAbs []
    | cons a t =>
      rw [if_neg ?_, if_pos rfl]
      rw [withinJail_renderAbs, renderAbs_nil_eq_root]
      subst hjcnil
      rw [not_startsWith_root hjc (List.cons_ne_nil _ _)]
      simp

/-- C1 counterexample.  With jail `J = "/a/b"`, base path `"/a/b/c"`
(inside `J`, at depth 1 below it) and path `"../.."` (two `..` segments,
≥ that relative depth), the claim asserts the result is exactly `J`; in
fact `resolveWithinJail` returns `"/a/b/a"`. -/
theorem c1_counterexample :
    Path.resolveWithinJail "/a/b" "/a/b/c" "../.." = "/a/b/a" ∧
    ¬ Path.resolveWithinJail "/a/b" "/a/b/c" "../.." = "/a/b" ∧
    jsStartsWith "/a/b/c" "/a/b" = true ∧
    depth "/a/b/c" - depth "/a/b" = 1 := by
  refine ⟨by decide, by decide, by decide, by decide⟩

/-- Witness for the amended C1 theorem at concrete inputs. -/
theorem c1_witness :
    GoodComps ["a", "b"] ∧
    jsStartsWith (Path.resolveWithinJail (renderAbs ["a", "b"]) "/a/b/c" "../..")
      (renderAbs ["a", "b"]) = true ∧
    Path.resolveWithinJail (renderAbs ["a", "b"]) "/x/y/z" (dotsPath 5) =
      renderAbs ["a", "b"] := by
  have h := c1_jail_containment_amended ["a", "b"] (by decide)
  exact ⟨by decide, h.1 "/a/b/c" "../.." (by decide),
    h.2 "/x/y/z" 5 (by decide)⟩

end Denzai

/-! ### Claims about the adapters and the engine at concrete inputs -/

namespace Denzai

/-- C2: the host-filesystem adapter must invoke every host primitive on
the jail-resolved path.  Six of the eight operations do (their host path
*is* `resolve(context, path)`, for every context and path); but `rm` and
`rmdir` compute `jailedPath` and then call `FS.rm(path)` /
`FS.rmdir(path)` on the raw argument: with jail `"/jail"` the adapter
removes `/etc/passwd` itself instead of `/jail/etc/passwd`. -/
theorem c2_host_paths_bypass_jail_in_rm_rmdir :
    (∀ (home : String) (context : StoreContext) (path : String),
      FileStore.readHostPath home context path = FileStore.resolve home context path ∧
      FileStore.readdirHostPath home context path = FileStore.resolve home context path ∧
      FileStore.mkdirHostPath home context path = FileStore.resolve home context path ∧
      FileStore.writeFileHostPath home context path = FileStore.resolve home context path ∧
      FileStore.statsHostPath home context path = FileStore.resolve home context path ∧
      FileStore.utimesHostPath home context path = FileStore.resolve home context path) ∧
    FileStore.rmHostPath "/home/u" ⟨"file:///jail", "/jail", "/jail"⟩ "/etc/passwd"
      = "/etc/passwd" ∧
    FileStore.rmdirHostPath "/home/u" ⟨"file:///jail", "/jail", "/jail"⟩ "/etc"
      = "/etc" ∧
    FileStore.resolve "/home/u" ⟨"file:///jail", "/jail", "/jail"⟩ "/etc/passwd"
      = "/jail/etc/passwd" ∧
    jsStartsWith "/etc/passwd" "/jail" = false := by
  refine ⟨fun home context path => ⟨rfl, rfl, rfl, rfl, rfl, rfl⟩, ?_, ?_, ?_, ?_⟩
  · decide
  · decide
  · decide
  · decide

/-- C3: in the memory engine, `rm` of an existing file leaves the
removed name in its parent's `children` (the source never splices it
out) and throws an `INVARIANT` error from `rebuildIndex` (the deleted
slot is a hole that `invariant(isSome(node))` trips over), instead of
returning success.  Concretely: after `write("/a")`, `rm("/a")` panics,
`readdir("/")` still lists `"a"`, and `stats` on the listed entry fails
with `PATH_NOT_FOUND` — contradicting the claim that a readdir entry
always names an existing node. -/
theorem c3_rm_breaks_readdir_consistency :
    (MemoryFs.write (MemoryFs.empty "/" (some 0) 0) ⟨"memory://", "/", "/"⟩
        "/a" "x" none none 1).1 = MemOut.ok () ∧
    (MemoryFs.rm 100 (MemoryFs.write (MemoryFs.empty "/" (some 0) 0)
        ⟨"memory://", "/", "/"⟩ "/a" "x" none none 1).2
        ⟨"memory://", "/", "/"⟩ "/a" none none none 3).1 = MemOut.panic ∧
    (MemoryFs.readdir (MemoryFs.rm 100 (MemoryFs.write (MemoryFs.empty "/" (some 0) 0)
        ⟨"memory://", "/", "/"⟩ "/a" "x" none none 1).2
        ⟨"memory://", "/", "/"⟩ "/a" none none none 3).2
        ⟨"memory://", "/", "/"⟩ "/").1 = MemOut.ok ["a"] ∧
    (MemoryFs.stats (MemoryFs.rm 100 (MemoryFs.write (MemoryFs.empty "/" (some 0) 0)
        ⟨"memory://", "/", "/"⟩ "/a" "x" none none 1).2
        ⟨"memory://", "/", "/"⟩ "/a" none none none 3).2
        ⟨"memory://", "/", "/"⟩ "/a" 4).1 = MemOut.err .PATH_NOT_FOUND := by
  refine ⟨by decide, by decide, by decide, by decide⟩

/-- C4: `rmdir` never reads its `recursive` option.  On the non-empty
directory `/d` (containing the file `/d/f`), `rmdir("/d",
{recursive: false})` — which the claim says must fail and remove
nothing — deletes the whole subtree and then throws `INVARIANT` from
`rebuildIndex`: afterwards `stats` fails on `/d` and on `/d/f`.  Only
the file-target clause of the claim holds: `rmdir` on a file returns
`PATH_NOT_FOUND` and leaves the state unchanged. -/
theorem c4_rmdir_ignores_recursive_option :
    (MemoryFs.rmdir 100 (MemoryFs.write (MemoryFs.empty "/" (some 0) 0)
        ⟨"memory://", "/", "/"⟩ "/d/f" "x" none none 1).2
        ⟨"memory://", "/", "/"⟩ "/d" (some false) none none 5).1 = MemOut.panic ∧
    (MemoryFs.stats (MemoryFs.rmdir 100 (MemoryFs.write (MemoryFs.empty "/" (some 0) 0)
        ⟨"memory://", "/", "/"⟩ "/d/f" "x" none none 1).2
        ⟨"memory://", "/", "/"⟩ "/d" (some false) none none 5).2
        ⟨"memory://", "/", "/"⟩ "/d" 6).1 = MemOut.err .PATH_NOT_FOUND ∧
    (MemoryFs.stats (MemoryFs.rmdir 100 (MemoryFs.write (MemoryFs.empty "/" (some 0) 0)
        ⟨"memory://", "/", "/"⟩ "/d/f" "x" none none 1).2
        ⟨"memory://", "/", "/"⟩ "/d" (some false) none none 5).2
        ⟨"memory://", "/", "/"⟩ "/d/f" 6).1 = MemOut.err .PATH_NOT_FOUND ∧
    (MemoryFs.rmdir 100 (MemoryFs.write (MemoryFs.empty "/" (some 0) 0)
        ⟨"memory://", "/", "/"⟩ "/f" "x" none none 1).2
        ⟨"memory://", "/", "/"⟩ "/f" none none none 5)
      = (MemOut.err .PATH_NOT_FOUND,
         (MemoryFs.write (MemoryFs.empty "/" (some 0) 0)
           ⟨"memory://", "/", "/"⟩ "/f" "x" none none 1).2) := by
  refine ⟨by decide, by decide, by decide, by decide⟩

/-- C5 counterexample: the memory engine keeps `children` sorted with
the *default* JS string sort (plain lexicographic), not numeric-aware:
after writing `/10`, `/2`, `/1`, `readdir("/")` lists
`["1", "10", "2"]`, not the claimed `["1", "2", "10"]`. -/
theorem c5_counterexample :
    (MemoryFs.readdir (MemoryFs.write (MemoryFs.write (MemoryFs.write
        (MemoryFs.empty "/" (some 0) 0) ⟨"memory://", "/", "/"⟩ "/10" "a" none none 1).2
        ⟨"memory://", "/", "/"⟩ "/2" "b" none none 2).2
        ⟨"memory://", "/", "/"⟩ "/1" "c" none none 3).2
        ⟨"memory://", "/", "/"⟩ "/").1 = MemOut.ok ["1", "10", "2"] ∧
    (["1", "10", "2"] : List String) ≠ ["1", "2", "10"] := by
  exact ⟨by decide, by decide⟩

end Denzai

namespace Denzai

/-- C5 (amended): the host-filesystem backend's `readdir` applies the
numeric-aware comparator (all-digit names compare as integers), so
`["10","2","1"]` sorts to `["1","2","10"]` and `["b","a","c"]` to
`["a","b","c"]`; the memory engine keeps `children` in plain
lexicographic (default string sort) order, so the same directories list
as `["1","10","2"]` and `["a","b","c"]` there. -/
theorem c5_listing_order_amended :
    FileStore.sortChildren ["10", "2", "1"] = ["1", "2", "10"] ∧
    FileStore.sortChildren ["b", "a", "c"] = ["a", "b", "c"] ∧
    (MemoryFs.readdir (MemoryFs.write (MemoryFs.write (MemoryFs.write
        (MemoryFs.empty "/" (some 0) 0) ⟨"memory://", "/", "/"⟩ "/10" "a" none none 1).2
        ⟨"memory://", "/", "/"⟩ "/2" "b" none none 2).2
        ⟨"memory://", "/", "/"⟩ "/1" "c" none none 3).2
        ⟨"memory://", "/", "/"⟩ "/").1 = MemOut.ok ["1", "10", "2"] ∧
    (MemoryFs.readdir (MemoryFs.write (MemoryFs.write (MemoryFs.write
        (MemoryFs.empty "/" (some 0) 0) ⟨"memory://", "/", "/"⟩ "/b" "a" none none 1).2
        ⟨"memory://", "/", "/"⟩ "/a" "b" none none 2).2
        ⟨"memory://", "/", "/"⟩ "/c" "c" none none 3).2
        ⟨"memory://", "/", "/"⟩ "/").1 = MemOut.ok ["a", "b", "c"] := by
  refine ⟨by decide, by decide, by decide, by decide⟩

/-- C6 counterexample: with an existing *file* at `/a`, the path `/a/b`
does not name a directory, yet `write("/a/b", c)` fails with
`PATH_UNAVAILABLE` (the ancestor chain holds a file, so the recursive
`mkdir` cannot create the parent), leaves the state unchanged, and the
subsequent `read` fails — refuting “write succeeds for *every*
non-directory path”. -/
theorem c6_counterexample :
    MemoryFs.getNode (MemoryFs.write (MemoryFs.empty "/" (some 0) 0)
        ⟨"memory://", "/", "/"⟩ "/a" "x" none none 1).2 "/a/b" = NodeRef.null ∧
    (MemoryFs.write (MemoryFs.write (MemoryFs.empty "/" (some 0) 0)
        ⟨"memory://", "/", "/"⟩ "/a" "x" none none 1).2
        ⟨"memory://", "/", "/"⟩ "/a/b" "y" none none 4)
      = (MemOut.err .PATH_UNAVAILABLE,
         (MemoryFs.write (MemoryFs.empty "/" (some 0) 0)
           ⟨"memory://", "/", "/"⟩ "/a" "x" none none 1).2) ∧
    (MemoryFs.read (MemoryFs.write (MemoryFs.empty "/" (some 0) 0)
        ⟨"memory://", "/", "/"⟩ "/a" "x" none none 1).2
        ⟨"memory://", "/", "/"⟩ "/a/b" 5).1 = MemOut.err .FILE_NOT_FOUND := by
  refine ⟨by decide, by decide, by decide⟩

/-- C8: the `webStore` constructor reads the slot named by the *string
literal* `"prefix"` (`storage.getItem("prefix")`) while `save()` writes
the slot named by the `prefix` option.  So with `prefix = "myfs"`, a
tree containing `/a` saved by one instance lands in slot `"myfs"`, and
a later instance constructed over that storage loads nothing: its
engine is the empty tree and `read("/a")` fails — even though the saved
envelope round-trips fine through `MemoryFs.parse`. -/
theorem c8_webstore_load_save_slot_mismatch :
    WebStore.loadKey = "prefix" ∧
    WebStore.saveKey { keyPrefix := some "myfs" } = "myfs" ∧
    WebStore.save [] { keyPrefix := some "myfs" }
        (MemoryFs.write (MemoryFs.empty "/" (some 0) 0)
          ⟨"memory://", "/", "/"⟩ "/a" "x" none none 1).2
      = [("myfs", MemoryFs.toJson (MemoryFs.write (MemoryFs.empty "/" (some 0) 0)
          ⟨"memory://", "/", "/"⟩ "/a" "x" none none 1).2)] ∧
    WebStore.initMemory (WebStore.save [] { keyPrefix := some "myfs" }
        (MemoryFs.write (MemoryFs.empty "/" (some 0) 0)
          ⟨"memory://", "/", "/"⟩ "/a" "x" none none 1).2)
        { keyPrefix := some "myfs" } 9
      = MemOut.ok (MemoryFs.empty "/" none 9) ∧
    (MemoryFs.read (MemoryFs.empty "/" none 9)
        ⟨"memory://", "/", "/"⟩ "/a" 10).1 = MemOut.err .FILE_NOT_FOUND ∧
    MemoryFs.parse (MemoryFs.toJson (MemoryFs.write (MemoryFs.empty "/" (some 0) 0)
        ⟨"memory://", "/", "/"⟩ "/a" "x" none none 1).2)
      = MemOut.ok (MemoryFs.write (MemoryFs.empty "/" (some 0) 0)
          ⟨"memory://", "/", "/"⟩ "/a" "x" none none 1).2 ∧
    (MemoryFs.read (MemoryFs.write (MemoryFs.empty "/" (some 0) 0)
        ⟨"memory://", "/", "/"⟩ "/a" "x" none none 1).2
        ⟨"memory://", "/", "/"⟩ "/a" 10).1 = MemOut.ok "x" := by
  refine ⟨rfl, rfl, by decide, by decide, by decide, by decide, by decide⟩

end Denzai

/-! ### Serialization round trip (C7) -/

namespace Denzai

theorem digitVal_digitChar {n : Nat} (h : n < 10) :
    digitVal (digitChar n) = n := by
  interval_cases n <;> rfl

theorem decode_natChars :
    ∀ (fuel n : Nat), n < fuel →
      (natChars fuel n).foldl (fun acc c => acc * 10 + digitVal c) 0 = n := by
  intro fuel
  induction fuel with
  | zero => intro n h; omega
  | succ fuel ih =>
    intro n h
    rw [natChars]
    by_cases h10 : n < 10
    · rw [if_pos h10]
      simp [digitVal_digitChar h10]
    · rw [if_neg h10]
      rw [List.foldl_append]
      have hdiv : n / 10 < fuel := by
        have hlt : n / 10 < n := Nat.div_lt_self (by omega) (by omega)
        omega
      rw [ih (n / 10) hdiv]
      have hmod : n % 10 < 10 := Nat.mod_lt n (by omega)
      simp [digitVal_digitChar hmod]
      omega

theorem decodeDate_encodeDate (n : Nat) : decodeDate (encodeDate n) = n := by
  unfold decodeDate encodeDate
  exact decode_natChars (n + 1) n (Nat.lt_succ_self n)

theorem decTime_serTime (t : StoreNodeTime) : decTime (serTime t) = t := by
  cases t with
  | mk mtime atime ctime btime =>
    unfold decTime serTime
    cases mtime <;> cases atime <;> cases ctime <;> cases btime <;>
      simp [decodeDate_encodeDate]

theorem decNode_serNode (n : FsNode) : decNode (serNode n) = n := by
  cases n <;> simp [serNode, decNode, decTime_serTime]

/-- C7: parsing the serialized form of an engine state reconstructs the
state exactly (hence `read`, `readdir` and `stats` agree on every path),
for every state whose version is `"0.1"` and whose nodes array has no
holes — which is every state a successfully returning operation leaves
behind.  `Date` fields survive through their string encodings. -/
theorem c7_parse_toJson_roundtrip (fs : Fs)
    (hver : fs.version = "0.1")
    (hnoholes : fs.nodes.all Option.isSome = true) :
    MemoryFs.parse (MemoryFs.toJson fs) = MemOut.ok fs ∧
    ∀ fs', MemoryFs.parse (MemoryFs.toJson fs) = MemOut.ok fs' →
      (∀ context path now,
        MemoryFs.read fs' context path now = MemoryFs.read fs context path now) ∧
      (∀ context path,
        MemoryFs.readdir fs' context path = MemoryFs.readdir fs context path) ∧
      (∀ context path now,
        MemoryFs.stats fs' context path now = MemoryFs.stats fs context path now) := by
  have hmain : MemoryFs.parse (MemoryFs.toJson fs) = MemOut.ok fs := by
    unfold MemoryFs.parse MemoryFs.toJson
    rw [if_pos (by simpa using hver)]
    have hall : (fs.nodes.map (Option.map serNode)).all Option.isSome = true := by
      rw [List.all_eq_true] at hnoholes ⊢
      intro o ho
      rw [List.mem_map] at ho
      obtain ⟨o', ho', rfl⟩ := ho
      have hsome := hnoholes o' ho'
      cases o' with
      | none => simp at hsome
      | some n => simp
    rw [if_pos hall]
    have hnodes : (fs.nodes.map (Option.map serNode)).map (Option.map decNode)
        = fs.nodes := by
      rw [List.map_map]
      have hid : ∀ o : Option FsNode,
          (Option.map decNode ∘ Option.map serNode) o = o := by
        intro o
        cases o <;> simp [decNode_serNode]
      calc fs.nodes.map (Option.map decNode ∘ Option.map serNode)
          = fs.nodes.map id := List.map_congr_left (fun o _ => hid o)
        _ = fs.nodes := List.map_id _
    simp only [hnodes]
  refine ⟨hmain, ?_⟩
  intro fs' h
  rw [hmain] at h
  cases h
  exact ⟨fun _ _ _ => rfl, fun _ _ => rfl, fun _ _ _ => rfl⟩

/-- Witness for C7 on a concrete state (root plus one written file). -/
theorem c7_witness :
    MemoryFs.parse (MemoryFs.toJson (MemoryFs.write (MemoryFs.empty "/" (some 0) 0)
        ⟨"memory://", "/", "/"⟩ "/a" "x" none none 1).2)
      = MemOut.ok (MemoryFs.write (MemoryFs.empty "/" (some 0) 0)
        ⟨"memory://", "/", "/"⟩ "/a" "x" none none 1).2 := by
  exact (c7_parse_toJson_roundtrip _ (by decide) (by decide)).1

end Denzai

/-! ### C10: a returned error never mutates the tree -/

namespace Denzai

theorem rebuildIndex_ne_err (fs : Fs) (e : StoreErrCode) :
    (MemoryFs.rebuildIndex fs).1 ≠ MemOut.err e := by
  intro h
  simp only [MemoryFs.rebuildIndex] at h
  split at h <;> simp_all

theorem addNode_ne_err (fs : Fs) (node : FsNode) (ts : Option Nat)
    (rb : Option Bool) (now : Nat) (e : StoreErrCode) :
    (MemoryFs.addNode fs node ts rb now).1 ≠ MemOut.err e := by
  intro h
  simp only [MemoryFs.addNode] at h
  split at h
  · split at h
    · exact rebuildIndex_ne_err _ _ h
    · simp_all
  · simp_all

theorem mkdirLoop_ne_err :
    ∀ (ps : List String) (fs : Fs) (ts now : Nat) (e : StoreErrCode),
      (MemoryFs.mkdirLoop fs ps ts now).1 ≠ MemOut.err e := by
  intro ps
  induction ps with
  | nil => intro fs ts now e h; simp [MemoryFs.mkdirLoop] at h
  | cons p rest ih =>
    intro fs ts now e h
    simp only [MemoryFs.mkdirLoop] at h
    cases hn : MemoryFs.getNode fs p with
    | null =>
      rw [hn] at h
      simp only at h
      cases ha : MemoryFs.addNode fs (.dir p [] (allTimes ts)) (some ts)
          (some false) now with
      | mk out fs1 =>
        rw [ha] at h
        cases out with
        | ok a => exact ih fs1 ts now e h
        | err e' => exact addNode_ne_err _ _ _ _ _ e' (by rw [ha])
        | panic => simp at h
        | fuelOut => simp at h
    | undefined => rw [hn] at h; exact ih fs ts now e h
    | node n => rw [hn] at h; exact ih fs ts now e h

theorem mkdir_errFrame (fs : Fs) (context : StoreContext) (path : String)
    (recursive? : Option Bool) (timestamp? : Option Nat) (now : Nat) :
    ErrFrame (MemoryFs.mkdir fs context path recursive? timestamp? now) fs := by
  intro e
  simp only [MemoryFs.mkdir]
  split
  · intro _; rfl
  · intro h; simp at h
  · split
    · split
      · intro h; exact absurd h (addNode_ne_err _ _ _ _ _ e)
      · intro _; rfl
    · split
      · intro _; rfl
      · split
        · intro h; exact absurd h (rebuildIndex_ne_err _ e)
        · intro h; exact absurd h (mkdirLoop_ne_err _ _ _ _ e)

end Denzai

namespace Denzai

theorem read_errFrame (fs : Fs) (context : StoreContext) (filename : String)
    (now : Nat) :
    ErrFrame (MemoryFs.read fs context filename now) fs := by
  intro e
  simp only [MemoryFs.read]
  split
  · split
    · intro h; simp at h
    · intro h; simp at h
  · intro _; rfl

theorem write_errFrame (fs : Fs) (context : StoreContext) (path content : String)
    (recursive? : Option Bool) (timestamp? : Option Nat) (now : Nat) :
    ErrFrame (MemoryFs.write fs context path content recursive? timestamp? now) fs := by
  intro e
  simp only [MemoryFs.write]
  split
  · intro _; rfl
  · split
    · intro h; simp at h
    · intro h; simp at h
  · split
    · split
      · split
        · split
          · intro h; exact absurd h (addNode_ne_err _ _ _ _ _ e)
          · intro h; simp at h
        · intro h; exact mkdir_errFrame _ _ _ _ _ _ e h
      · intro _; rfl
    · intro h; exact absurd h (addNode_ne_err _ _ _ _ _ e)
    · intro _; rfl

theorem rmFinish_ne_err (loop : MemOut Unit × Fs) (npath path : String)
    (timestamp : Nat) (rebuild : Bool) (e : StoreErrCode) :
    (MemoryFs.rmFinish loop npath path timestamp rebuild).1 ≠ MemOut.err e := by
  simp only [MemoryFs.rmFinish]
  split
  · simp
  · simp
  · split
    · simp
    · split
      · split
        · exact rebuildIndex_ne_err _ e
        · simp
      · simp

theorem rm_errFrame (fuel : Nat) (fs : Fs) (context : StoreContext) (path : String)
    (recursive? : Option Bool) (timestamp? : Option Nat) (rebuildIndex? : Option Bool)
    (now : Nat) :
    ErrFrame (MemoryFs.rm fuel fs context path recursive? timestamp? rebuildIndex? now)
      fs := by
  intro e
  cases fuel with
  | zero => intro h; simp [MemoryFs.rm] at h
  | succ fuel =>
    simp only [MemoryFs.rm]
    split
    · intro h; simp at h
    · intro h; simp at h
    · split
      · intro h; simp at h
      · split
        · split
          · intro h; exact absurd h (rebuildIndex_ne_err _ e)
          · intro h; simp at h
        · intro h; simp at h
    · split
      · intro h; exact absurd h (rmFinish_ne_err _ _ _ _ _ e)
      · intro _; rfl

theorem rmdir_errFrame (fuel : Nat) (fs : Fs) (context : StoreContext)
    (path : String) (recursive? : Option Bool) (timestamp? : Option Nat)
    (rebuildIndex? : Option Bool) (now : Nat) :
    ErrFrame (MemoryFs.rmdir fuel fs context path recursive? timestamp?
      rebuildIndex? now) fs := by
  intro e
  simp only [MemoryFs.rmdir]
  split
  · intro h; simp at h
  · intro h; simp at h
  · split
    · intro h; exact rm_errFrame fuel fs context path none none none now e h
    · intro h; exact rm_errFrame fuel fs context path (some true) none none now e h
  · intro _; rfl

theorem utimes_errFrame (fs : Fs) (context : StoreContext) (path : String)
    (st : StoreNodeTime) :
    ErrFrame (MemoryFs.utimes fs context path st) fs := by
  intro e
  simp only [MemoryFs.utimes]
  split
  · intro h; simp at h
  · intro _; rfl

theorem stats_state (fs : Fs) (context : StoreContext) (path : String) (now : Nat) :
    (MemoryFs.stats fs context path now).2 = fs := by
  simp only [MemoryFs.stats]
  split <;> rfl

theorem readdir_state (fs : Fs) (context : StoreContext) (path : String) :
    (MemoryFs.readdir fs context path).2 = fs := by
  simp only [MemoryFs.readdir]
  split <;> rfl

/-- C10: whenever a memory-engine operation returns a typed `StoreErr`
value (as opposed to succeeding, or throwing an `INVARIANT` exception),
the tree state afterwards is exactly the state before the call; `stats`
and `readdir` never mutate at all. -/
theorem c10_errors_leave_state_unchanged :
    (∀ fs context filename now,
      ErrFrame (MemoryFs.read fs context filename now) fs) ∧
    (∀ fs context path content recursive? timestamp? now,
      ErrFrame (MemoryFs.write fs context path content recursive? timestamp? now) fs) ∧
    (∀ fs context path recursive? timestamp? now,
      ErrFrame (MemoryFs.mkdir fs context path recursive? timestamp? now) fs) ∧
    (∀ fuel fs context path recursive? timestamp? rebuildIndex? now,
      ErrFrame (MemoryFs.rm fuel fs context path recursive? timestamp?
        rebuildIndex? now) fs) ∧
    (∀ fuel fs context path recursive? timestamp? rebuildIndex? now,
      ErrFrame (MemoryFs.rmdir fuel fs context path recursive? timestamp?
        rebuildIndex? now) fs) ∧
    (∀ fs context path st, ErrFrame (MemoryFs.utimes fs context path st) fs) ∧
    (∀ fs context path now, (MemoryFs.stats fs context path now).2 = fs) ∧
    (∀ fs context path, (MemoryFs.readdir fs context path).2 = fs) := by
  exact ⟨read_errFrame, write_errFrame, mkdir_errFrame, rm_errFrame,
    rmdir_errFrame, utimes_errFrame, stats_state, readdir_state⟩

/-- Witness for C10: concrete erroring calls whose post-state is the
initial state. -/
theorem c10_witness :
    (MemoryFs.read (MemoryFs.empty "/" (some 0) 0) ⟨"memory://", "/", "/"⟩ "/x" 1).1
      = MemOut.err StoreErrCode.FILE_NOT_FOUND ∧
    (MemoryFs.read (MemoryFs.empty "/" (some 0) 0) ⟨"memory://", "/", "/"⟩ "/x" 1).2
      = MemoryFs.empty "/" (some 0) 0 ∧
    (MemoryFs.utimes (MemoryFs.empty "/" (some 0) 0) ⟨"memory://", "/", "/"⟩ "/x"
      {}).1 = MemOut.err StoreErrCode.PATH_NOT_FOUND ∧
    (MemoryFs.utimes (MemoryFs.empty "/" (some 0) 0) ⟨"memory://", "/", "/"⟩ "/x"
      {}).2 = MemoryFs.empty "/" (some 0) 0 := by
  have h1 := c10_errors_leave_state_unchanged.1 (MemoryFs.empty "/" (some 0) 0)
    ⟨"memory://", "/", "/"⟩ "/x" 1 StoreErrCode.FILE_NOT_FOUND (by decide)
  have h2 := c10_errors_leave_state_unchanged.2.2.2.2.2.1
    (MemoryFs.empty "/" (some 0) 0) ⟨"memory://", "/", "/"⟩ "/x" {}
    StoreErrCode.PATH_NOT_FOUND (by decide)
  exact ⟨by decide, h1, by decide, h2⟩

end Denzai

/-! ### Clean-absolute-path algebra: splitting, dirname, idempotent resolution -/

namespace Denzai

theorem goodComps_dropLast {l : List String} (hl : GoodComps l) :
    GoodComps l.dropLast :=
  fun s hs => hl s (mem_dropLast hs)

theorem plainComps_good {l : List String} (hl : PlainComps l) : GoodComps l :=
  fun s hs => ⟨(hl s hs).1, (hl s hs).2.2⟩

theorem plainComps_dropLast {l : List String} (hl : PlainComps l) :
    PlainComps l.dropLast :=
  fun s hs => hl s (mem_dropLast hs)

theorem plainComps_append {l1 l2 : List String}
    (h1 : PlainComps l1) (h2 : PlainComps l2) : PlainComps (l1 ++ l2) := by
  intro s hs
  rcases List.mem_append.mp hs with h | h
  · exact h1 s h
  · exact h2 s h

theorem splitCh_of_no_slash : ∀ (cs : List Char), '/' ∉ cs → splitCh cs = [cs]
  | [], _ => rfl
  | c :: rest, h => by
    have hc : ¬ c = '/' := fun hc => h (by rw [hc]; exact List.mem_cons_self _ _)
    have h' : '/' ∉ rest := fun hm => h (List.mem_cons_of_mem _ hm)
    unfold splitCh
    rw [if_neg hc, splitCh_of_no_slash rest h']

theorem splitCh_append_slash : ∀ (xs ys : List Char), '/' ∉ xs →
    splitCh (xs ++ '/' :: ys) = xs :: splitCh ys
  | [], ys, _ => by
    show splitCh ('/' :: ys) = [] :: splitCh ys
    simp only [splitCh]
    rw [if_pos trivial]
  | x :: xs, ys, h => by
    have hx : ¬ x = '/' := fun hc => h (by rw [hc]; exact List.mem_cons_self _ _)
    have h' : '/' ∉ xs := fun hm => h (List.mem_cons_of_mem _ hm)
    show splitCh (x :: (xs ++ '/' :: ys)) = (x :: xs) :: splitCh ys
    simp only [splitCh]
    rw [if_neg hx, splitCh_append_slash xs ys h']

theorem splitCh_joinData : ∀ (l : List String), GoodComps l → l ≠ [] →
    splitCh (joinData l) = l.map String.data
  | [], _, h => absurd rfl h
  | [a], hl, _ => by
    rw [joinData_single, splitCh_of_no_slash a.data (hl a (List.mem_singleton.mpr rfl)).2]
    rfl
  | a :: b :: t, hl, _ => by
    have hbt : GoodComps (b :: t) := fun s hs => hl s (List.mem_cons_of_mem _ hs)
    rw [joinData_cons a (List.cons_ne_nil b t),
      splitCh_append_slash a.data _ (hl a (List.mem_cons_self _ _)).2,
      splitCh_joinData (b :: t) hbt (List.cons_ne_nil _ _)]
    rfl

theorem jsSplit_renderAbs {l : List String} (hl : GoodComps l) (hne : l ≠ []) :
    jsSplit (renderAbs l) = "" :: l := by
  unfold jsSplit
  rw [renderAbs_data]
  have h1 : splitCh ('/' :: joinData l) = [] :: splitCh (joinData l) := by
    simp only [splitCh]; rw [if_pos trivial]
  rw [h1, splitCh_joinData l hl hne]
  simp [Function.comp_def, mk_data]

theorem renderAbs_inj {A B : List String} (hA : GoodComps A) (hB : GoodComps B)
    (h : renderAbs A = renderAbs B) : A = B := by
  by_cases hAn : A = []
  · by_cases hBn : B = []
    · rw [hAn, hBn]
    · subst hAn
      rw [renderAbs_nil_eq_root] at h
      exact absurd h.symm (renderAbs_ne_root hB hBn)
  · by_cases hBn : B = []
    · subst hBn
      rw [renderAbs_nil_eq_root] at h
      exact absurd h (renderAbs_ne_root hA hAn)
    · have h2 := congrArg jsSplit h
      rw [jsSplit_renderAbs hA hAn, jsSplit_renderAbs hB hBn] at h2
      simpa using h2

theorem renderAbs_dropLast_ne {L : List String} (hL : GoodComps L) (hne : L ≠ []) :
    renderAbs L.dropLast ≠ renderAbs L := by
  intro h
  have heq := renderAbs_inj (goodComps_dropLast hL) hL h
  have hlen := congrArg List.length heq
  rw [List.length_dropLast] at hlen
  have hpos : 0 < L.length := List.length_pos.mpr hne
  omega

theorem resolve_root_renderAbs {L : List String} (hL : GoodComps L) :
    Path.resolve "/" (renderAbs L) = renderAbs L := by
  unfold Path.resolve
  rw [if_pos (isAbsolute_renderAbs L)]
  exact cleanPath_renderAbs hL

theorem jsJoinSlash_cons_cons (x y : String) (l : List String) :
    jsJoinSlash (x :: y :: l) = x ++ "/" ++ jsJoinSlash (y :: l) := rfl

theorem dirname_renderAbs : ∀ {L : List String}, GoodComps L →
    Path.dirname (renderAbs L) = renderAbs L.dropLast
  | [], _ => by decide
  | [x], hL => by
    simp [Path.dirname, jsSplit_renderAbs hL (List.cons_ne_nil _ _),
      isAbsolute_renderAbs, renderAbs_nil_eq_root]
  | a :: b :: t, hL => by
    simp only [Path.dirname]
    rw [jsSplit_renderAbs hL (List.cons_ne_nil _ _), List.dropLast_cons₂,
      List.dropLast_cons₂]
    rw [if_neg (by simp), if_neg (by simp)]
    rw [jsJoinSlash_cons_cons]
    have hjj : ("" : String) ++ "/" ++ jsJoinSlash (a :: (b :: t).dropLast) =
        renderAbs (a :: (b :: t).dropLast) := by
      apply String.ext
      simp [String.data_append, renderAbs_data, joinData]
    rw [hjj]
    exact cleanPath_renderAbs (goodComps_dropLast hL)

theorem parentKey_renderAbs {L : List String} (hL : GoodComps L) :
    MemoryFs.parentKey (renderAbs L) = renderAbs L.dropLast := by
  unfold MemoryFs.parentKey
  rw [resolve_root_renderAbs hL, dirname_renderAbs hL]

theorem jsSplit_plain {x : String} (hx : '/' ∉ x.data) : jsSplit x = [x] := by
  unfold jsSplit
  rw [splitCh_of_no_slash x.data hx]
  simp [mk_data]

theorem join_snoc {M : List String} (hM : PlainComps M) {x : String}
    (hx1 : x ≠ "") (hx2 : x ≠ ".") (hx3 : '/' ∉ x.data) :
    Path.join [renderAbs M, x] = renderAbs (M ++ [x]) := by
  have hfM : (jsSplit (renderAbs M)).filter
      (fun part => !(part = "" || part = ".")) = M := by
    by_cases hMn : M = []
    · subst hMn
      rw [renderAbs_nil_eq_root]
      decide
    · rw [jsSplit_renderAbs (plainComps_good hM) hMn, List.filter_cons]
      simp only [decide_eq_true_eq, Bool.or_eq_true, decide_eq_true_iff]
      rw [if_neg (by simp)]
      exact List.filter_eq_self.mpr (fun a ha => by
        have h2 := hM a ha
        simp [h2.1, h2.2.1])
  have hfx : (jsSplit x).filter (fun part => !(part = "" || part = ".")) = [x] := by
    rw [jsSplit_plain hx3, List.filter_cons]
    simp [hx1, hx2]
  simp only [Path.join]
  rw [List.flatMap_cons, List.flatMap_cons, List.flatMap_nil, hfM, hfx]
  rw [if_pos (show jsStartsWith (renderAbs M) "/" = true from isAbsolute_renderAbs M)]
  simp [renderAbs]

theorem rwj_abs_within {M : List String} (hM : GoodComps M) {jail : String}
    (hw : Path.withinJail jail (renderAbs M) = true) (basePath : String) :
    Path.resolveWithinJail jail basePath (renderAbs M) = renderAbs M := by
  simp only [Path.resolveWithinJail]
  have hres : Path.resolve basePath (renderAbs M) = renderAbs M := by
    unfold Path.resolve
    rw [if_pos (isAbsolute_renderAbs M)]
    exact cleanPath_renderAbs hM
  rw [hres, if_pos hw]
  by_cases hMn : M = []
  · subst hMn
    rw [renderAbs_nil_eq_root]
    simp
  · rw [if_neg (renderAbs_ne_root hM hMn)]
    exact stripTrail_renderAbs hM hMn

end Denzai

/-! ### The string-keyed index dictionary -/

namespace Denzai

theorem idxLookup_mem : ∀ {idx : List (String × Nat)} {k : String} {i : Nat},
    idxLookup idx k = some i → (k, i) ∈ idx
  | [], k, i, h => by simp [idxLookup] at h
  | (k', v) :: rest, k, i, h => by
    unfold idxLookup at h
    split at h
    · rename_i hk
      injection h with hv
      rw [List.mem_cons]
      left
      rw [hk, hv]
    · exact List.mem_cons_of_mem _ (idxLookup_mem h)

theorem idxLookup_cons (k' : String) (v' : Nat) (rest : List (String × Nat))
    (k : String) :
    idxLookup ((k', v') :: rest) k = if k' = k then some v' else idxLookup rest k :=
  rfl

theorem idxLookup_idxSet : ∀ (idx : List (String × Nat)) (key : String) (v : Nat)
    (k : String), idxLookup (idxSet idx key v) k =
      if key = k then some v else idxLookup idx k
  | [], key, v, k => by
    show idxLookup [(key, v)] k = _
    rw [idxLookup_cons]
  | (k', v') :: rest, key, v, k => by
    unfold idxSet
    by_cases hke : k' = key
    · rw [if_pos hke]
      subst hke
      rw [idxLookup_cons, idxLookup_cons]
      by_cases hk : k' = k
      · rw [if_pos hk, if_pos hk]
      · rw [if_neg hk, if_neg hk, if_neg hk]
    · rw [if_neg hke, idxLookup_cons, idxLookup_cons]
      by_cases hk : k' = k
      · rw [if_pos hk, if_pos hk]
        rw [if_neg (fun he => hke (hk.trans he.symm))]
      · rw [if_neg hk, if_neg hk]
        exact idxLookup_idxSet rest key v k

theorem idxSet_absent : ∀ {idx : List (String × Nat)} {key : String},
    idxLookup idx key = none → ∀ (v : Nat), idxSet idx key v = idx ++ [(key, v)]
  | [], _, _, _ => rfl
  | (k', v') :: rest, key, h, v => by
    unfold idxLookup at h
    unfold idxSet
    by_cases hk : k' = key
    · rw [if_pos hk] at h
      exact absurd h (by simp)
    · rw [if_neg hk] at h
      rw [if_neg hk, idxSet_absent h v]
      rfl

theorem idxLookup_append : ∀ (a b : List (String × Nat)) (k : String),
    idxLookup (a ++ b) k =
      match idxLookup a k with
      | some v => some v
      | none => idxLookup b k
  | [], b, k => rfl
  | (k', v') :: rest, b, k => by
    rw [List.cons_append, idxLookup_cons, idxLookup_cons]
    by_cases hk : k' = k
    · rw [if_pos hk, if_pos hk]
    · rw [if_neg hk, if_neg hk]
      exact idxLookup_append rest b k

theorem buildEntries_lookup_absent : ∀ (ns : List FsNode) (s : Nat) (k : String),
    (∀ n ∈ ns, n.path ≠ k) → idxLookup (buildEntries s ns) k = none
  | [], _, _, _ => rfl
  | n :: rest, s, k, h => by
    show idxLookup ((n.path, s) :: buildEntries (s + 1) rest) k = none
    rw [idxLookup_cons, if_neg (h n (List.mem_cons_self _ _)),
      buildEntries_lookup_absent rest (s + 1) k
        (fun m hm => h m (List.mem_cons_of_mem _ hm))]

theorem buildEntries_lookup_get : ∀ (ns : List FsNode) (s i : Nat) (n : FsNode),
    ns.get? i = some n → (ns.map FsNode.path).Nodup →
    idxLookup (buildEntries s ns) n.path = some (s + i)
  | [], _, i, n, h, _ => by simp at h
  | m :: rest, s, i, n, h, hnd => by
    show idxLookup ((m.path, s) :: buildEntries (s + 1) rest) n.path = some (s + i)
    have hnd2 : (∀ x ∈ rest, ¬ FsNode.path x = m.path) ∧
        (rest.map FsNode.path).Nodup := by simpa using hnd
    cases i with
    | zero =>
      rw [List.get?_cons_zero] at h
      injection h with h
      subst h
      rw [idxLookup_cons, if_pos rfl]
      exact congrArg some (by omega)
    | succ i =>
      rw [List.get?_cons_succ] at h
      have hm : m.path ≠ n.path :=
        fun he => hnd2.1 n (List.get?_mem h) he.symm
      rw [idxLookup_cons, if_neg hm,
        buildEntries_lookup_get rest (s + 1) i n h hnd2.2]
      exact congrArg some (by omega)

theorem mem_buildEntries : ∀ {ns : List FsNode} {s : Nat} {p : String × Nat},
    p ∈ buildEntries s ns → ∃ i n, ns.get? i = some n ∧ p = (n.path, s + i)
  | [], s, p, h => by simp [buildEntries] at h
  | n :: rest, s, p, h => by
    rw [show buildEntries s (n :: rest) = (n.path, s) :: buildEntries (s + 1) rest
      from rfl, List.mem_cons] at h
    rcases h with h | h
    · exact ⟨0, n, rfl, by simpa using h⟩
    · obtain ⟨i, m, hg, hp⟩ := mem_buildEntries h
      refine ⟨i + 1, m, by simpa using hg, ?_⟩
      rw [hp]
      simp [Prod.ext_iff]
      omega

end Denzai

/-! ### Well-formed engine states and the key-level view of `getNode` -/

namespace Denzai

theorem getNode_eq_getKey (fs : Fs) (q : String) :
    MemoryFs.getNode fs q = getKey fs (Path.resolve "/" q) := rfl

theorem getNode_renderAbs (fs : Fs) {L : List String} (hL : GoodComps L) :
    MemoryFs.getNode fs (renderAbs L) = getKey fs (renderAbs L) := by
  rw [getNode_eq_getKey, resolve_root_renderAbs hL]

theorem getParent_renderAbs (fs : Fs) {L : List String} (hL : GoodComps L) :
    MemoryFs.getParent fs (renderAbs L) = getKey fs (renderAbs L.dropLast) := by
  unfold MemoryFs.getParent
  rw [getNode_eq_getKey]
  have hpk : MemoryFs.parentKey (renderAbs L) = renderAbs L.dropLast :=
    parentKey_renderAbs hL
  rw [hpk, resolve_root_renderAbs (goodComps_dropLast hL)]

theorem wfFs_no_holes {fs : Fs} (h : wfFs fs = true) :
    ∀ slot ∈ fs.nodes, slot.isSome = true := by
  unfold wfFs at h
  simp only [Bool.and_eq_true, List.all_eq_true] at h
  exact h.1.1

theorem wfFs_entry {fs : Fs} (h : wfFs fs = true) {k : String} {i : Nat}
    (hk : (k, i) ∈ fs.index) :
    ∃ n, fs.nodes.get? i = some (some n) ∧ n.path = k := by
  unfold wfFs at h
  simp only [Bool.and_eq_true, List.all_eq_true] at h
  have h2 := h.1.2 (k, i) hk
  cases hn : fs.nodes.get? i with
  | none => rw [hn] at h2; simp at h2
  | some o =>
    cases o with
    | none => rw [hn] at h2; simp at h2
    | some n =>
      rw [hn] at h2
      simp at h2
      exact ⟨n, rfl, h2⟩

theorem wfFs_slot {fs : Fs} (h : wfFs fs = true) {i : Nat} {n : FsNode}
    (hn : fs.nodes.get? i = some (some n)) :
    idxLookup fs.index n.path = some i := by
  unfold wfFs at h
  simp only [Bool.and_eq_true, List.all_eq_true] at h
  have hi : i ∈ List.range fs.nodes.length := by
    rw [List.mem_range]
    exact (List.get?_eq_some.mp hn).1
  have h2 := h.2 i hi
  rw [hn] at h2
  simpa using h2

theorem wfFs_of {fs : Fs}
    (h1 : ∀ slot ∈ fs.nodes, slot.isSome = true)
    (h2 : ∀ p ∈ fs.index, ∃ n, fs.nodes.get? p.2 = some (some n) ∧ n.path = p.1)
    (h3 : ∀ (i : Nat) (n : FsNode), fs.nodes.get? i = some (some n) →
      idxLookup fs.index n.path = some i) :
    wfFs fs = true := by
  unfold wfFs
  simp only [Bool.and_eq_true, List.all_eq_true]
  refine ⟨⟨h1, ?_⟩, ?_⟩
  · intro p hp
    obtain ⟨n, hn, hpath⟩ := h2 p hp
    rw [hn]
    simpa using hpath
  · intro i hi
    rw [List.mem_range] at hi
    cases hn : fs.nodes.get? i with
    | none =>
      have hlen := List.get?_eq_none.mp hn
      omega
    | some o =>
      cases o with
      | none =>
        have := h1 none (List.get?_mem hn)
        simp at this
      | some n =>
        simpa using h3 i n hn

theorem getKey_node_of_lookup {fs : Fs} {k : String} {i : Nat} {n : FsNode}
    (hi : idxLookup fs.index k = some i) (hn : fs.nodes.get? i = some (some n)) :
    getKey fs k = .node n := by
  simp only [getKey, hi, hn]

theorem getKey_null_of_lookup {fs : Fs} {k : String}
    (h : idxLookup fs.index k = none) : getKey fs k = .null := by
  simp only [getKey, h]

theorem getKey_node_inv {fs : Fs} {k : String} {n : FsNode}
    (h : getKey fs k = .node n) :
    ∃ i, idxLookup fs.index k = some i ∧ fs.nodes.get? i = some (some n) := by
  unfold getKey at h
  cases hi : idxLookup fs.index k with
  | none => rw [hi] at h; simp at h
  | some i =>
    rw [hi] at h
    have h' : (match fs.nodes.get? i with
        | some (some m) => NodeRef.node m
        | _ => NodeRef.undefined) = NodeRef.node n := h
    cases hn : fs.nodes.get? i with
    | none => rw [hn] at h'; simp at h'
    | some o =>
      cases o with
      | none => rw [hn] at h'; simp at h'
      | some m =>
        rw [hn] at h'
        simp at h'
        exact ⟨i, rfl, by rw [hn, h']⟩

theorem getKey_null_lookup {fs : Fs} {k : String}
    (h : getKey fs k = .null) : idxLookup fs.index k = none := by
  unfold getKey at h
  cases hi : idxLookup fs.index k with
  | none => rfl
  | some i =>
    rw [hi] at h
    have h' : (match fs.nodes.get? i with
        | some (some m) => NodeRef.node m
        | _ => NodeRef.undefined) = NodeRef.null := h
    cases hn : fs.nodes.get? i with
    | none => rw [hn] at h'; simp at h'
    | some o =>
      cases o with
      | none => rw [hn] at h'; simp at h'
      | some m => rw [hn] at h'; simp at h'

theorem getKey_ne_undefined {fs : Fs} (h : wfFs fs = true) (k : String) :
    getKey fs k ≠ .undefined := by
  intro hu
  unfold getKey at hu
  cases hi : idxLookup fs.index k with
  | none => rw [hi] at hu; simp at hu
  | some i =>
    rw [hi] at hu
    have hu' : (match fs.nodes.get? i with
        | some (some m) => NodeRef.node m
        | _ => NodeRef.undefined) = NodeRef.undefined := hu
    obtain ⟨n, hn, _⟩ := wfFs_entry h (idxLookup_mem hi)
    rw [hn] at hu'
    simp at hu'

theorem getKey_node_mem {fs : Fs} (h : wfFs fs = true) {k : String} {n : FsNode} :
    getKey fs k = .node n ↔ some n ∈ fs.nodes ∧ n.path = k := by
  constructor
  · intro hk
    obtain ⟨i, hi, hn⟩ := getKey_node_inv hk
    obtain ⟨m, hm, hp⟩ := wfFs_entry h (idxLookup_mem hi)
    have hmn : m = n := by
      rw [hn] at hm
      injection hm with hm2
      injection hm2 with hm3
      exact hm3.symm
    refine ⟨List.get?_mem hn, ?_⟩
    rw [← hmn]
    exact hp
  · intro hmem
    obtain ⟨idx, hg⟩ := List.get_of_mem hmem.1
    have hi : fs.nodes.get? idx.1 = some (some n) :=
      List.get?_eq_some.mpr ⟨idx.isLt, hg⟩
    have hlk := wfFs_slot h hi
    rw [hmem.2] at hlk
    exact getKey_node_of_lookup hlk hi

theorem getKey_null_iff {fs : Fs} (h : wfFs fs = true) {k : String} :
    getKey fs k = .null ↔ ∀ n, some n ∈ fs.nodes → n.path ≠ k := by
  constructor
  · intro hk n hmem hp
    have h2 := (getKey_node_mem h).mpr ⟨hmem, hp⟩
    rw [hk] at h2
    exact absurd h2 (by simp)
  · intro hno
    cases hg : getKey fs k with
    | null => rfl
    | undefined => exact absurd hg (getKey_ne_undefined h k)
    | node n =>
      have h2 := (getKey_node_mem h).mp hg
      exact absurd h2.2 (hno n h2.1)

theorem wfFs_paths_inj {fs : Fs} (h : wfFs fs = true) {i j : Nat} {n m : FsNode}
    (hi : fs.nodes.get? i = some (some n)) (hj : fs.nodes.get? j = some (some m))
    (hp : n.path = m.path) : i = j := by
  have h1 := wfFs_slot h hi
  have h2 := wfFs_slot h hj
  rw [hp, h2] at h1
  injection h1 with h3
  exact h3.symm

end Denzai

/-! ### Effect of `updateNode` and `addNode` on the key-level view -/

namespace Denzai

theorem getKey_lookup_some {fs : Fs} {k : String} {i : Nat}
    (hi : idxLookup fs.index k = some i) :
    getKey fs k = (match fs.nodes.get? i with
      | some (some n) => NodeRef.node n
      | _ => NodeRef.undefined) := by
  simp only [getKey, hi]

theorem getKey_of_set_ne {fs : Fs} {i : Nat} {v : Option FsNode} {k : String}
    (hne : idxLookup fs.index k ≠ some i) :
    getKey { fs with nodes := fs.nodes.set i v } k = getKey fs k := by
  cases hl : idxLookup fs.index k with
  | none =>
    rw [getKey_null_of_lookup hl,
      getKey_null_of_lookup
        (show idxLookup ({ fs with nodes := fs.nodes.set i v } : Fs).index k = none
          from hl)]
  | some j =>
    have hij : i ≠ j := fun he => hne (he ▸ hl)
    rw [getKey_lookup_some hl,
      getKey_lookup_some
        (show idxLookup ({ fs with nodes := fs.nodes.set i v } : Fs).index k = some j
          from hl),
      show ({ fs with nodes := fs.nodes.set i v } : Fs).nodes = fs.nodes.set i v
        from rfl,
      List.get?_set_ne _ _ hij]

theorem getKey_set_self {fs : Fs} {i : Nat} {n : FsNode} {k : String}
    (hi : idxLookup fs.index k = some i) (hlt : i < fs.nodes.length) :
    getKey { fs with nodes := fs.nodes.set i (some n) } k = .node n := by
  refine getKey_node_of_lookup (i := i) hi ?_
  show (fs.nodes.set i (some n)).get? i = some (some n)
  rw [List.get?_set_eq_of_lt]
  exact hlt

theorem updateNode_found {fs : Fs} {q k : String} {i : Nat} {n : FsNode}
    (hq : Path.resolve "/" q = k)
    (hi : idxLookup fs.index k = some i) (hn : fs.nodes.get? i = some (some n))
    (f : FsNode → FsNode) :
    MemoryFs.updateNode fs q f =
      { fs with nodes := fs.nodes.set i (some (f n)) } := by
  simp only [MemoryFs.updateNode, hq, hi, hn]

end Denzai

namespace Denzai

theorem wfFs_push_set {fs : Fs} (hwf : wfFs fs = true)
    {node oldn newdir : FsNode} {ip : Nat}
    (hlkn : idxLookup fs.index node.path = none)
    (hslot : fs.nodes.get? ip = some (some oldn))
    (hsame : newdir.path = oldn.path) :
    wfFs { fs with
      index := fs.index ++ [(node.path, fs.nodes.length)]
      nodes := (fs.nodes ++ [some node]).set ip (some newdir) } = true := by
  have hip_lt : ip < fs.nodes.length := (List.get?_eq_some.mp hslot).1
  apply wfFs_of
  · intro slot hs
    rcases List.mem_or_eq_of_mem_set hs with hs | hs
    · rcases List.mem_append.mp hs with hs | hs
      · exact wfFs_no_holes hwf slot hs
      · rw [List.mem_singleton.mp hs]; rfl
    · rw [hs]; rfl
  · intro p hp
    rcases List.mem_append.mp hp with hp | hp
    · obtain ⟨n0, hn0, hp0⟩ := wfFs_entry hwf hp
      by_cases hpe : p.2 = ip
      · refine ⟨newdir, ?_, ?_⟩
        · show ((fs.nodes ++ [some node]).set ip (some newdir)).get? p.2 =
            some (some newdir)
          rw [hpe, List.get?_set_eq_of_lt]
          rw [List.length_append]
          omega
        · rw [hpe] at hn0
          rw [hn0] at hslot
          injection hslot with h2
          injection h2 with h3
          rw [hsame, ← h3]
          exact hp0
      · refine ⟨n0, ?_, hp0⟩
        show ((fs.nodes ++ [some node]).set ip (some newdir)).get? p.2 =
          some (some n0)
        rw [List.get?_set_ne _ _ (fun he => hpe he.symm),
          List.get?_append (List.get?_eq_some.mp hn0).1]
        exact hn0
    · have hp2 : p = (node.path, fs.nodes.length) := List.mem_singleton.mp hp
      refine ⟨node, ?_, by rw [hp2]⟩
      rw [hp2]
      show ((fs.nodes ++ [some node]).set ip (some newdir)).get? fs.nodes.length =
        some (some node)
      rw [List.get?_set_ne _ _ (show ip ≠ fs.nodes.length by omega),
        List.get?_concat_length]
  · intro i n hn
    by_cases hie : i = ip
    · rw [show ({ fs with
          index := fs.index ++ [(node.path, fs.nodes.length)]
          nodes := (fs.nodes ++ [some node]).set ip (some newdir) } : Fs).nodes =
          (fs.nodes ++ [some node]).set ip (some newdir) from rfl,
        hie] at hn
      rw [List.get?_set_eq_of_lt] at hn
      · injection hn with h2
        injection h2 with h3
        show idxLookup (fs.index ++ [(node.path, fs.nodes.length)]) n.path = some i
        rw [← h3, hsame, hie, idxLookup_append, wfFs_slot hwf hslot]
      · rw [List.length_append]
        omega
    · rw [show ({ fs with
          index := fs.index ++ [(node.path, fs.nodes.length)]
          nodes := (fs.nodes ++ [some node]).set ip (some newdir) } : Fs).nodes =
          (fs.nodes ++ [some node]).set ip (some newdir) from rfl,
        List.get?_set_ne _ _ (fun he => hie he.symm)] at hn
      by_cases hiN : i < fs.nodes.length
      · rw [List.get?_append hiN] at hn
        show idxLookup (fs.index ++ [(node.path, fs.nodes.length)]) n.path = some i
        rw [idxLookup_append, wfFs_slot hwf hn]
      · have hiN2 : i = fs.nodes.length := by
          have hlt := (List.get?_eq_some.mp hn).1
          rw [List.length_append] at hlt
          simp at hlt
          omega
        subst hiN2
        rw [List.get?_concat_length] at hn
        injection hn with h2
        injection h2 with h3
        show idxLookup (fs.index ++ [(node.path, fs.nodes.length)]) n.path =
          some fs.nodes.length
        rw [← h3, idxLookup_append, hlkn]
        show idxLookup [(node.path, fs.nodes.length)] node.path = _
        rw [idxLookup_cons, if_pos rfl]

end Denzai

namespace Denzai

theorem addNode_create {fs : Fs} (hwf : wfFs fs = true)
    {node : FsNode} {L : List String} (hL : GoodComps L) (hLne : L ≠ [])
    (hpath : node.path = renderAbs L)
    (hnull : getKey fs (renderAbs L) = .null)
    {pp : String} {pch : List String} {pst : StoreNodeTime}
    (hpar : getKey fs (renderAbs L.dropLast) = .node (.dir pp pch pst))
    (rb? : Option Bool) (hrb : rb?.getD false = false) (ts now : Nat) :
    MemoryFs.addNode fs node (some ts) rb? now =
      (.ok (), { fs with
        index := fs.index ++ [(node.path, fs.nodes.length)]
        nodes := (fs.nodes ++ [some node]).set
          ((idxLookup fs.index (renderAbs L.dropLast)).getD 0)
          (some (FsNode.dir pp (jsSortStrings (pch ++ [node.path]))
            { pst with mtime := some ts })) }) ∧
      wfFs ({ fs with
        index := fs.index ++ [(node.path, fs.nodes.length)]
        nodes := (fs.nodes ++ [some node]).set
          ((idxLookup fs.index (renderAbs L.dropLast)).getD 0)
          (some (FsNode.dir pp (jsSortStrings (pch ++ [node.path]))
            { pst with mtime := some ts })) } : Fs) = true ∧
      getKey ({ fs with
        index := fs.index ++ [(node.path, fs.nodes.length)]
        nodes := (fs.nodes ++ [some node]).set
          ((idxLookup fs.index (renderAbs L.dropLast)).getD 0)
          (some (FsNode.dir pp (jsSortStrings (pch ++ [node.path]))
            { pst with mtime := some ts })) } : Fs) (renderAbs L) = .node node ∧
      getKey ({ fs with
        index := fs.index ++ [(node.path, fs.nodes.length)]
        nodes := (fs.nodes ++ [some node]).set
          ((idxLookup fs.index (renderAbs L.dropLast)).getD 0)
          (some (FsNode.dir pp (jsSortStrings (pch ++ [node.path]))
            { pst with mtime := some ts })) } : Fs) (renderAbs L.dropLast) =
        .node (.dir pp (jsSortStrings (pch ++ [node.path]))
          { pst with mtime := some ts }) ∧
      (∀ k, k ≠ renderAbs L → k ≠ renderAbs L.dropLast →
        getKey ({ fs with
          index := fs.index ++ [(node.path, fs.nodes.length)]
          nodes := (fs.nodes ++ [some node]).set
            ((idxLookup fs.index (renderAbs L.dropLast)).getD 0)
            (some (FsNode.dir pp (jsSortStrings (pch ++ [node.path]))
              { pst with mtime := some ts })) } : Fs) k = getKey fs k) := by
  have hgdl : GoodComps L.dropLast := goodComps_dropLast hL
  have hlkrp : idxLookup fs.index (renderAbs L) = none := getKey_null_lookup hnull
  obtain ⟨ip, hip, hnp⟩ := getKey_node_inv hpar
  have hip_lt : ip < fs.nodes.length := (List.get?_eq_some.mp hnp).1
  have hipD : (idxLookup fs.index (renderAbs L.dropLast)).getD 0 = ip := by
    rw [hip]; rfl
  have hN : renderAbs L.dropLast ≠ renderAbs L := renderAbs_dropLast_ne hL hLne
  have hppk : pp = renderAbs L.dropLast := by
    obtain ⟨m, hm, hmp⟩ := wfFs_entry hwf (idxLookup_mem hip)
    rw [hnp] at hm
    injection hm with hm2
    injection hm2 with hm3
    rw [← hm3] at hmp
    exact hmp
  have hlkn : idxLookup fs.index node.path = none := by rw [hpath]; exact hlkrp
  have hidx1 : idxSet fs.index node.path fs.nodes.length =
      fs.index ++ [(node.path, fs.nodes.length)] := idxSet_absent hlkn _
  have hget1 : MemoryFs.getNode
      { fs with index := idxSet fs.index node.path fs.nodes.length
                nodes := fs.nodes ++ [some node] } (Path.dirname node.path) =
      NodeRef.node (.dir pp pch pst) := by
    have harg : Path.dirname node.path = renderAbs L.dropLast := by
      rw [hpath, dirname_renderAbs hL]
    rw [harg, getNode_renderAbs _ hgdl]
    refine getKey_node_of_lookup (i := ip) ?_ ?_
    · show idxLookup (idxSet fs.index node.path fs.nodes.length)
        (renderAbs L.dropLast) = some ip
      rw [idxLookup_idxSet]
      rw [if_neg (by rw [hpath]; exact fun he => hN he.symm)]
      exact hip
    · show (fs.nodes ++ [some node]).get? ip = some (some (FsNode.dir pp pch pst))
      rw [List.get?_append hip_lt]
      exact hnp
  have hupd := @updateNode_found
    { fs with index := idxSet fs.index node.path fs.nodes.length
              nodes := fs.nodes ++ [some node] }
    (Path.dirname node.path) (renderAbs L.dropLast) ip
    (.dir pp pch pst)
    (by rw [hpath, dirname_renderAbs hL]; exact resolve_root_renderAbs hgdl)
    (by
      show idxLookup (idxSet fs.index node.path fs.nodes.length)
        (renderAbs L.dropLast) = some ip
      rw [idxLookup_idxSet]
      rw [if_neg (by rw [hpath]; exact fun he => hN he.symm)]
      exact hip)
    (by
      show (fs.nodes ++ [some node]).get? ip = some (some (FsNode.dir pp pch pst))
      rw [List.get?_append hip_lt]
      exact hnp)
    (fun _ => FsNode.dir pp (jsSortStrings (pch ++ [node.path]))
      { pst with mtime := some ts })
  have haddeq : MemoryFs.addNode fs node (some ts) rb? now =
      (.ok (), { fs with
        index := fs.index ++ [(node.path, fs.nodes.length)]
        nodes := (fs.nodes ++ [some node]).set
          ((idxLookup fs.index (renderAbs L.dropLast)).getD 0)
          (some (FsNode.dir pp (jsSortStrings (pch ++ [node.path]))
            { pst with mtime := some ts })) }) := by
    simp only [MemoryFs.addNode, Option.getD_some]
    simp only [hget1]
    rw [if_neg (show ¬(rb?.getD false = true) by rw [hrb]; decide)]
    rw [hupd, hipD, hidx1]
  refine ⟨haddeq, ?_, ?_, ?_, ?_⟩
  · rw [hipD]
    exact wfFs_push_set hwf hlkn hnp rfl
  · rw [hipD]
    refine getKey_node_of_lookup
      (i := fs.nodes.length) ?_ ?_
    · show idxLookup (fs.index ++ [(node.path, fs.nodes.length)]) (renderAbs L) =
        some fs.nodes.length
      rw [idxLookup_append, hlkrp]
      show idxLookup [(node.path, fs.nodes.length)] (renderAbs L) = _
      rw [idxLookup_cons, if_pos hpath]
    · show ((fs.nodes ++ [some node]).set ip _).get? fs.nodes.length =
        some (some node)
      rw [List.get?_set_ne _ _ (show ip ≠ fs.nodes.length by omega),
        List.get?_concat_length]
  · rw [hipD]
    refine getKey_node_of_lookup (i := ip) ?_ ?_
    · show idxLookup (fs.index ++ [(node.path, fs.nodes.length)])
        (renderAbs L.dropLast) = some ip
      rw [idxLookup_append, hip]
    · show ((fs.nodes ++ [some node]).set ip _).get? ip = _
      rw [List.get?_set_eq_of_lt]
      rw [List.length_append]
      omega
  · intro k hk1 hk2
    rw [hipD]
    cases hlk : idxLookup fs.index k with
    | none =>
      rw [getKey_null_of_lookup hlk, getKey_null_of_lookup]
      show idxLookup (fs.index ++ [(node.path, fs.nodes.length)]) k = none
      rw [idxLookup_append, hlk]
      show idxLookup [(node.path, fs.nodes.length)] k = none
      rw [idxLookup_cons, if_neg (by rw [hpath]; exact fun he => hk1 he.symm)]
      rfl
    | some j =>
      have hjip : j ≠ ip := by
        intro he
        obtain ⟨m, hm, hmp⟩ := wfFs_entry hwf (idxLookup_mem hlk)
        rw [he, hnp] at hm
        injection hm with hm2
        injection hm2 with hm3
        rw [← hm3, hppk] at hmp
        exact hk2 hmp.symm
      have hjlt : j < fs.nodes.length := by
        obtain ⟨m, hm, _⟩ := wfFs_entry hwf (idxLookup_mem hlk)
        exact (List.get?_eq_some.mp hm).1
      have hlk2 : idxLookup (fs.index ++ [(node.path, fs.nodes.length)]) k =
          some j := by
        rw [idxLookup_append, hlk]
      rw [getKey_lookup_some hlk, getKey_lookup_some hlk2]
      show (match ((fs.nodes ++ [some node]).set ip _).get? j with
        | some (some n) => NodeRef.node n
        | _ => NodeRef.undefined) = _
      rw [List.get?_set_ne _ _ (fun he => hjip he.symm),
        List.get?_append hjlt]

end Denzai

/-! ### Frame lemmas for `write` (fresh-file case with existing parent) and `read` -/

namespace Denzai

theorem write_create_frame {fs : Fs} (hwf : wfFs fs = true)
    (context : StoreContext) (p c : String) (recursive? : Option Bool)
    (timestamp? : Option Nat) (now : Nat) {L : List String} (hL : GoodComps L)
    (hrp : Path.resolveWithinJail context.jail context.pwd p = renderAbs L)
    (hnull : getKey fs (renderAbs L) = .null)
    {pp : String} {pch : List String} {pst : StoreNodeTime}
    (hpar : getKey fs (renderAbs L.dropLast) = .node (.dir pp pch pst)) :
    (MemoryFs.write fs context p c recursive? timestamp? now).1 = .ok () ∧
    wfFs (MemoryFs.write fs context p c recursive? timestamp? now).2 = true ∧
    getKey (MemoryFs.write fs context p c recursive? timestamp? now).2
      (renderAbs L) =
      .node (.file (renderAbs L) c (allTimes (timestamp?.getD now))) ∧
    getKey (MemoryFs.write fs context p c recursive? timestamp? now).2
      (renderAbs L.dropLast) =
      .node (.dir pp (jsSortStrings (pch ++ [renderAbs L]))
        { pst with mtime := some (timestamp?.getD now) }) ∧
    (∀ k, k ≠ renderAbs L → k ≠ renderAbs L.dropLast →
      getKey (MemoryFs.write fs context p c recursive? timestamp? now).2 k =
        getKey fs k) := by
  have hLne : L ≠ [] := by
    intro h
    subst h
    rw [show ([] : List String).dropLast = [] from rfl, hnull] at hpar
    exact absurd hpar (by simp)
  have hwrite : MemoryFs.write fs context p c recursive? timestamp? now =
      MemoryFs.addNode fs
        (.file (renderAbs L) c (allTimes (timestamp?.getD now)))
        (some (timestamp?.getD now)) none now := by
    simp only [MemoryFs.write]
    rw [hrp, getNode_renderAbs fs hL, getParent_renderAbs fs hL]
    simp only [hnull, hpar]
  obtain ⟨heq, hwff, hkey, hpk, hframe⟩ :=
    @addNode_create fs hwf
      (.file (renderAbs L) c (allTimes (timestamp?.getD now))) L hL hLne rfl
      hnull pp pch pst hpar none rfl (timestamp?.getD now) now
  rw [hwrite, heq]
  exact ⟨rfl, hwff, hkey, hpk, hframe⟩

theorem read_frame {fs : Fs} (hwf : wfFs fs = true)
    (context : StoreContext) (p : String) (now : Nat) {L : List String}
    (hL : GoodComps L) (hLne : L ≠ [])
    (hrp : Path.resolveWithinJail context.jail context.pwd p = renderAbs L)
    {ct : String} {fst : StoreNodeTime}
    (hfile : getKey fs (renderAbs L) = .node (.file (renderAbs L) ct fst))
    {pn : FsNode}
    (hpar : getKey fs (renderAbs L.dropLast) = .node pn) :
    (MemoryFs.read fs context p now).1 = .ok ct ∧
    getKey (MemoryFs.read fs context p now).2 (renderAbs L) =
      .node (.file (renderAbs L) ct { fst with atime := some now }) ∧
    getKey (MemoryFs.read fs context p now).2 (renderAbs L.dropLast) =
      .node (FsNode.setAtime now pn) ∧
    (∀ k, k ≠ renderAbs L → k ≠ renderAbs L.dropLast →
      getKey (MemoryFs.read fs context p now).2 k = getKey fs k) := by
  have hgdl : GoodComps L.dropLast := goodComps_dropLast hL
  have hne : renderAbs L.dropLast ≠ renderAbs L := renderAbs_dropLast_ne hL hLne
  obtain ⟨i, hi, hn⟩ := getKey_node_inv hfile
  obtain ⟨j, hj, hjn⟩ := getKey_node_inv hpar
  have hilt : i < fs.nodes.length := (List.get?_eq_some.mp hn).1
  have hjlt : j < fs.nodes.length := (List.get?_eq_some.mp hjn).1
  have hpnp : pn.path = renderAbs L.dropLast := ((getKey_node_mem hwf).mp hpar).2
  have hij : i ≠ j := by
    intro he
    rw [he, hjn] at hn
    injection hn with h2
    injection h2 with h3
    have h4 := congrArg FsNode.path h3
    rw [hpnp] at h4
    exact hne h4
  have hstep1 := @updateNode_found fs (renderAbs L) (renderAbs L) i
    (.file (renderAbs L) ct fst) (resolve_root_renderAbs hL) hi hn
    (FsNode.setAtime now)
  have hj1 : idxLookup ({ fs with
      nodes :=
        fs.nodes.set i
          (some (FsNode.setAtime now (.file (renderAbs L) ct fst))) } : Fs).index
      (renderAbs L.dropLast) = some j := hj
  have hjn1 : ({ fs with
      nodes :=
        fs.nodes.set i
          (some (FsNode.setAtime now
            (.file (renderAbs L) ct fst))) } : Fs).nodes.get? j =
      some (some pn) := by
    show (fs.nodes.set i _).get? j = _
    rw [List.get?_set_ne _ _ hij]
    exact hjn
  have hpar1 : getKey { fs with
      nodes :=
        fs.nodes.set i
          (some (FsNode.setAtime now (.file (renderAbs L) ct fst))) }
      (renderAbs L.dropLast) = .node pn := by
    rw [getKey_of_set_ne (fun he => hij (by
      rw [hj] at he
      injection he with h2
      exact h2.symm))]
    exact hpar
  have hread : MemoryFs.read fs context p now =
      (.ok ct, { fs with
        nodes :=
          (fs.nodes.set i
            (some (FsNode.setAtime now (.file (renderAbs L) ct fst)))).set j
            (some (FsNode.setAtime now pn)) }) := by
    simp only [MemoryFs.read]
    rw [hrp, getNode_renderAbs fs hL]
    simp only [hfile]
    rw [hstep1, dirname_renderAbs hL, getNode_renderAbs _ hgdl]
    simp only [hpar1]
    rw [@updateNode_found
      { fs with
        nodes :=
          fs.nodes.set i
            (some (FsNode.setAtime now (.file (renderAbs L) ct fst))) }
      (renderAbs L.dropLast) (renderAbs L.dropLast) j pn
      (resolve_root_renderAbs hgdl) hj1 hjn1 (FsNode.setAtime now)]
  rw [hread]
  refine ⟨rfl, ?_, ?_, ?_⟩
  · refine getKey_node_of_lookup hi ?_
    show ((fs.nodes.set i _).set j _).get? i = _
    rw [List.get?_set_ne _ _ (fun he => hij he.symm)]
    rw [List.get?_set_eq_of_lt]
    · rfl
    · exact hilt
  · refine getKey_node_of_lookup hj ?_
    show ((fs.nodes.set i _).set j _).get? j = _
    rw [List.get?_set_eq_of_lt]
    rw [List.length_set]
    exact hjlt
  · intro k hk1 hk2
    cases hlk : idxLookup fs.index k with
    | none =>
      rw [getKey_null_of_lookup hlk, getKey_null_of_lookup]
      exact hlk
    | some m =>
      obtain ⟨mn, hmn, hmp⟩ := wfFs_entry hwf (idxLookup_mem hlk)
      have hmi : m ≠ i := by
        intro he
        rw [he, hn] at hmn
        injection hmn with h2
        injection h2 with h3
        rw [← h3] at hmp
        exact hk1 hmp.symm
      have hmj : m ≠ j := by
        intro he
        rw [he, hjn] at hmn
        injection hmn with h2
        injection h2 with h3
        rw [← h3, hpnp] at hmp
        exact hk2 hmp.symm
      rw [getKey_lookup_some hlk,
        getKey_lookup_some (show idxLookup ({ fs with
          nodes :=
            (fs.nodes.set i
              (some (FsNode.setAtime now (.file (renderAbs L) ct fst)))).set j
              (some (FsNode.setAtime now pn)) } : Fs).index k = some m
          from hlk)]
      show (match ((fs.nodes.set i _).set j _).get? m with
        | some (some n) => NodeRef.node n
        | _ => NodeRef.undefined) = _
      rw [List.get?_set_ne _ _ (fun he => hmj he.symm),
        List.get?_set_ne _ _ (fun he => hmi he.symm)]

end Denzai

/-! ### C9: timestamp frame of file creation and file read -/

namespace Denzai

/-- C9.  Part one: `write` creating a new file (target key absent,
parent directory present) sets all four timestamps of the new node to
the write timestamp, sets the direct parent's `mtime` to that timestamp
while keeping its other stats, and leaves the node of every other key —
in particular every further ancestor, hence its `mtime` — exactly as it
was.  Part two: a successful `read` of a file sets the file's `atime`
and the direct parent's `atime` to the read time and leaves every other
node unchanged. -/
theorem c9_timestamp_frame :
    (∀ (fs : Fs) (context : StoreContext) (p c : String)
      (recursive? : Option Bool) (timestamp? : Option Nat) (now : Nat)
      (L : List String) (pp : String) (pch : List String)
      (pst : StoreNodeTime),
      wfFs fs = true → GoodComps L →
      Path.resolveWithinJail context.jail context.pwd p = renderAbs L →
      getKey fs (renderAbs L) = .null →
      getKey fs (renderAbs L.dropLast) = .node (.dir pp pch pst) →
      (MemoryFs.write fs context p c recursive? timestamp? now).1 = .ok () ∧
      getKey (MemoryFs.write fs context p c recursive? timestamp? now).2
        (renderAbs L) =
        .node (.file (renderAbs L) c (allTimes (timestamp?.getD now))) ∧
      getKey (MemoryFs.write fs context p c recursive? timestamp? now).2
        (renderAbs L.dropLast) =
        .node (.dir pp (jsSortStrings (pch ++ [renderAbs L]))
          { pst with mtime := some (timestamp?.getD now) }) ∧
      (∀ k, k ≠ renderAbs L → k ≠ renderAbs L.dropLast →
        getKey (MemoryFs.write fs context p c recursive? timestamp? now).2 k =
          getKey fs k)) ∧
    (∀ (fs : Fs) (context : StoreContext) (p : String) (now : Nat)
      (L : List String) (ct : String) (fst : StoreNodeTime) (pn : FsNode),
      wfFs fs = true → GoodComps L → L ≠ [] →
      Path.resolveWithinJail context.jail context.pwd p = renderAbs L →
      getKey fs (renderAbs L) = .node (.file (renderAbs L) ct fst) →
      getKey fs (renderAbs L.dropLast) = .node pn →
      (MemoryFs.read fs context p now).1 = .ok ct ∧
      getKey (MemoryFs.read fs context p now).2 (renderAbs L) =
        .node (.file (renderAbs L) ct { fst with atime := some now }) ∧
      getKey (MemoryFs.read fs context p now).2 (renderAbs L.dropLast) =
        .node (FsNode.setAtime now pn) ∧
      (∀ k, k ≠ renderAbs L → k ≠ renderAbs L.dropLast →
        getKey (MemoryFs.read fs context p now).2 k = getKey fs k)) := by
  constructor
  · intro fs context p c recursive? timestamp? now L pp pch pst
      hwf hL hrp hnull hpar
    obtain ⟨h1, _, h3, h4, h5⟩ :=
      write_create_frame hwf context p c recursive? timestamp? now hL hrp
        hnull hpar
    exact ⟨h1, h3, h4, h5⟩
  · intro fs context p now L ct fst pn hwf hL hLne hrp hfile hpar
    exact read_frame hwf context p now hL hLne hrp hfile hpar

/-- Witness for C9 at concrete inputs: writing `/a` into the empty
engine (parent `/`), and reading `/a` from a two-node engine. -/
theorem c9_witness :
    wfFs (MemoryFs.empty "/" (some 5) 5) = true ∧
    getKey (MemoryFs.empty "/" (some 5) 5) (renderAbs ["a"]) = .null ∧
    (MemoryFs.write (MemoryFs.empty "/" (some 5) 5) ⟨"memory://", "/", "/"⟩
      "/a" "hello" none none 9).1 = .ok () ∧
    getKey (MemoryFs.write (MemoryFs.empty "/" (some 5) 5)
      ⟨"memory://", "/", "/"⟩ "/a" "hello" none none 9).2 (renderAbs ["a"]) =
      .node (.file (renderAbs ["a"]) "hello" (allTimes 9)) ∧
    getKey (MemoryFs.write (MemoryFs.empty "/" (some 5) 5)
      ⟨"memory://", "/", "/"⟩ "/a" "hello" none none 9).2
      (renderAbs (["a"]).dropLast) =
      .node (.dir "/" (jsSortStrings ([] ++ [renderAbs ["a"]]))
        { allTimes 5 with mtime := some 9 }) ∧
    (MemoryFs.read
      { version := "0.1"
        nodes := [some (.dir "/" ["/a"] (allTimes 5)),
          some (.file "/a" "hi" (allTimes 6))]
        index := [("/", 0), ("/a", 1)] } ⟨"memory://", "/", "/"⟩ "/a" 9).1 =
      .ok "hi" ∧
    getKey (MemoryFs.read
      { version := "0.1"
        nodes := [some (.dir "/" ["/a"] (allTimes 5)),
          some (.file "/a" "hi" (allTimes 6))]
        index := [("/", 0), ("/a", 1)] } ⟨"memory://", "/", "/"⟩ "/a" 9).2
      (renderAbs (["a"]).dropLast) =
      .node (FsNode.setAtime 9 (.dir "/" ["/a"] (allTimes 5))) := by
  have h1 := c9_timestamp_frame.1 (MemoryFs.empty "/" (some 5) 5)
    ⟨"memory://", "/", "/"⟩ "/a" "hello" none none 9 ["a"] "/" []
    (allTimes 5) (by decide) (by decide) (by decide) (by decide) (by decide)
  have h2 := c9_timestamp_frame.2
    { version := "0.1"
      nodes := [some (.dir "/" ["/a"] (allTimes 5)),
        some (.file "/a" "hi" (allTimes 6))]
      index := [("/", 0), ("/a", 1)] }
    ⟨"memory://", "/", "/"⟩ "/a" 9 ["a"] "hi" (allTimes 6)
    (.dir "/" ["/a"] (allTimes 5)) (by decide) (by decide) (by decide)
    (by decide) (by decide) (by decide)
  exact ⟨by decide, by decide, h1.1, h1.2.1, h1.2.2.1, h2.1, h2.2.2.1⟩

end Denzai

/-! ### `rebuildIndex` on a well-formed state: identity on the key-level view -/

namespace Denzai

theorem exists_get?_of_mem {α : Type} {l : List α} {a : α} (h : a ∈ l) :
    ∃ i, l.get? i = some a := by
  obtain ⟨idx, hg⟩ := List.get_of_mem h
  exact ⟨idx.1, List.get?_eq_some.mpr ⟨idx.isLt, hg⟩⟩

theorem nodup_map_of_get? {α β : Type} {l : List α} {f : α → β}
    (h : ∀ (i j : Nat) (a b : α), l.get? i = some a → l.get? j = some b →
      f a = f b → i = j) : (l.map f).Nodup := by
  induction l with
  | nil => simp
  | cons a t ih =>
    rw [List.map_cons, List.nodup_cons]
    constructor
    · intro hmem
      rw [List.mem_map] at hmem
      obtain ⟨b, hb, hfb⟩ := hmem
      obtain ⟨j, hj⟩ := exists_get?_of_mem hb
      have h2 := h 0 (j + 1) a b rfl (by simpa using hj) hfb.symm
      simp at h2
    · exact ih (fun i j x y hx hy hf => by
        have h2 := h (i + 1) (j + 1) x y (by simpa using hx) (by simpa using hy) hf
        omega)

theorem nodes_eq_filterMap : ∀ {l : List (Option FsNode)},
    (∀ slot ∈ l, slot.isSome = true) → (l.filterMap id).map some = l
  | [], _ => rfl
  | a :: t, h => by
    cases a with
    | none => exact absurd (h none (List.mem_cons_self _ _)) (by simp)
    | some x =>
      rw [show (some x :: t).filterMap id = x :: t.filterMap id from by
        simp [List.filterMap_cons], List.map_cons,
        nodes_eq_filterMap (fun s hs => h s (List.mem_cons_of_mem _ hs))]

theorem wfFs_live_nodup {fs : Fs} (h : wfFs fs = true)
    (hn : (fs.nodes.filterMap id).map some = fs.nodes) :
    ((fs.nodes.filterMap id).map FsNode.path).Nodup := by
  apply nodup_map_of_get?
  intro i j a b ha hb hf
  have ha2 : fs.nodes.get? i = some (some a) := by
    rw [← hn, List.get?_map, ha]; rfl
  have hb2 : fs.nodes.get? j = some (some b) := by
    rw [← hn, List.get?_map, hb]; rfl
  exact wfFs_paths_inj h ha2 hb2 hf

theorem foldl_buildEntries : ∀ (ns : List FsNode) (idx0 : List (String × Nat))
    (s : Nat), (∀ n ∈ ns, idxLookup idx0 n.path = none) →
    (ns.map FsNode.path).Nodup →
    (ns.foldl (fun p n => (idxSet p.1 n.path p.2, p.2 + 1)) (idx0, s)).1 =
      idx0 ++ buildEntries s ns
  | [], idx0, s, _, _ => by simp [buildEntries]
  | n :: rest, idx0, s, habs, hnd => by
    have hnd2 : (∀ x ∈ rest, ¬ FsNode.path x = n.path) ∧
        (rest.map FsNode.path).Nodup := by simpa using hnd
    rw [List.foldl_cons]
    have hset : idxSet idx0 n.path s = idx0 ++ [(n.path, s)] :=
      idxSet_absent (habs n (List.mem_cons_self _ _)) s
    rw [foldl_buildEntries rest (idxSet idx0 n.path s) (s + 1)
      (fun m hm => by
        rw [hset, idxLookup_append, habs m (List.mem_cons_of_mem _ hm)]
        show idxLookup [(n.path, s)] m.path = none
        rw [idxLookup_cons, if_neg (fun he => hnd2.1 m hm (he.symm))]
        rfl)
      hnd2.2]
    rw [hset, List.append_assoc]
    rfl

theorem rebuildIndex_preserves {fs : Fs} (hwf : wfFs fs = true) :
    (MemoryFs.rebuildIndex fs).1 = .ok () ∧
    wfFs (MemoryFs.rebuildIndex fs).2 = true ∧
    (∀ k, getKey (MemoryFs.rebuildIndex fs).2 k = getKey fs k) := by
  have hn : (fs.nodes.filterMap id).map some = fs.nodes :=
    nodes_eq_filterMap (wfFs_no_holes hwf)
  have hlen : (fs.nodes.filterMap id).length = fs.nodes.length := by
    conv_rhs => rw [← hn]
    rw [List.length_map]
  have hndl : ((fs.nodes.filterMap id).map FsNode.path).Nodup :=
    wfFs_live_nodup hwf hn
  have hperm : List.Perm
      (List.insertionSort (fun a b => jsLtStr a.path b.path = true)
        (fs.nodes.filterMap id)) (fs.nodes.filterMap id) :=
    List.perm_insertionSort _ _
  have hnds : ((List.insertionSort (fun a b => jsLtStr a.path b.path = true)
      (fs.nodes.filterMap id)).map FsNode.path).Nodup :=
    ((hperm.map FsNode.path).nodup_iff).mpr hndl
  have hsortmem : ∀ n : FsNode,
      (n ∈ List.insertionSort (fun a b => jsLtStr a.path b.path = true)
        (fs.nodes.filterMap id)) ↔ some n ∈ fs.nodes := by
    intro n
    rw [hperm.mem_iff]
    constructor
    · intro hm
      rw [← hn]
      exact List.mem_map_of_mem _ hm
    · intro hm
      rw [← hn, List.mem_map] at hm
      obtain ⟨m, hm2, he⟩ := hm
      injection he with he2
      rw [← he2]
      exact hm2
  have hfold : ((List.insertionSort (fun a b => jsLtStr a.path b.path = true)
      (fs.nodes.filterMap id)).foldl
        (fun p n => (idxSet p.1 n.path p.2, p.2 + 1)) ([], 0)).1 =
      buildEntries 0 (List.insertionSort (fun a b => jsLtStr a.path b.path = true)
        (fs.nodes.filterMap id)) := by
    rw [foldl_buildEntries _ [] 0 (fun m _ => rfl) hnds]
    rfl
  have heq : MemoryFs.rebuildIndex fs = (.ok (), { fs with
      nodes := ((List.insertionSort (fun a b => jsLtStr a.path b.path = true)
        (fs.nodes.filterMap id)).map some)
      index := buildEntries 0
        (List.insertionSort (fun a b => jsLtStr a.path b.path = true)
          (fs.nodes.filterMap id)) }) := by
    simp only [MemoryFs.rebuildIndex]
    rw [hlen, Nat.sub_self, if_pos rfl, hfold]
    rw [List.replicate_zero, List.append_nil]
  have hwf2 : wfFs ({ fs with
      nodes := ((List.insertionSort (fun a b => jsLtStr a.path b.path = true)
        (fs.nodes.filterMap id)).map some)
      index := buildEntries 0
        (List.insertionSort (fun a b => jsLtStr a.path b.path = true)
          (fs.nodes.filterMap id)) } : Fs) = true := by
    apply wfFs_of
    · intro slot hs
      rw [List.mem_map] at hs
      obtain ⟨m, _, he⟩ := hs
      rw [← he]
      rfl
    · intro p hp
      obtain ⟨i, m, hg, hpe⟩ := mem_buildEntries hp
      refine ⟨m, ?_, by rw [hpe]⟩
      show ((List.insertionSort _ _).map some).get? p.2 = some (some m)
      rw [hpe]
      show ((List.insertionSort _ _).map some).get? (0 + i) = some (some m)
      rw [Nat.zero_add, List.get?_map, hg]
      rfl
    · intro i m hm
      have hg : (List.insertionSort (fun a b => jsLtStr a.path b.path = true)
          (fs.nodes.filterMap id)).get? i = some m := by
        have h2 : ((List.insertionSort (fun a b => jsLtStr a.path b.path = true)
            (fs.nodes.filterMap id)).get? i).map some = some (some m) := by
          rw [← List.get?_map]
          exact hm
        cases h3 : (List.insertionSort (fun a b => jsLtStr a.path b.path = true)
            (fs.nodes.filterMap id)).get? i with
        | none => rw [h3] at h2; simp at h2
        | some x =>
          rw [h3] at h2
          simp at h2
          rw [h2]
      have h4 := buildEntries_lookup_get _ 0 i m hg hnds
      rw [Nat.zero_add] at h4
      exact h4
  refine ⟨by rw [heq], by rw [heq]; exact hwf2, ?_⟩
  intro k
  rw [heq]
  cases hk : getKey fs k with
  | undefined => exact absurd hk (getKey_ne_undefined hwf k)
  | null =>
    have hno := (getKey_null_iff hwf).mp hk
    refine (getKey_null_iff hwf2).mpr ?_
    intro n hmem hp
    rw [List.mem_map] at hmem
    obtain ⟨m, hm, he⟩ := hmem
    injection he with he2
    exact hno m ((hsortmem m).mp hm) (by rw [he2]; exact hp)
  | node n =>
    have hmem := (getKey_node_mem hwf).mp hk
    refine (getKey_node_mem hwf2).mpr ⟨?_, hmem.2⟩
    show some n ∈ (List.insertionSort _ _).map some
    exact List.mem_map_of_mem _ ((hsortmem n).mpr hmem.1)

end Denzai

/-! ### The cumulative-prefix chain walked by `getPaths`/`hasPathAvailable` -/

namespace Denzai

theorem chainFrom_mem_shape : ∀ {rest M : List String} {y : String},
    y ∈ chainFrom M rest →
    ∃ Q, y = renderAbs (M ++ Q) ∧ Q ≠ [] ∧ Q.length ≤ rest.length ∧
      (∀ s ∈ Q, s ∈ rest)
  | [], _, y, h => by simp [chainFrom] at h
  | x :: rest, M, y, h => by
    rw [show chainFrom M (x :: rest) =
      renderAbs (M ++ [x]) :: chainFrom (M ++ [x]) rest from rfl,
      List.mem_cons] at h
    rcases h with h | h
    · exact ⟨[x], h, by simp, by simp, fun s hs => by
        rw [List.mem_singleton.mp hs]; exact List.mem_cons_self _ _⟩
    · obtain ⟨Q, hy, hQne, hQlen, hQmem⟩ := chainFrom_mem_shape h
      refine ⟨x :: Q, ?_, by simp, by simp; omega, ?_⟩
      · rw [hy, List.append_assoc]
        rfl
      · intro s hs
        rcases List.mem_cons.mp hs with hs | hs
        · rw [hs]; exact List.mem_cons_self _ _
        · exact List.mem_cons_of_mem _ (hQmem s hs)

theorem chain_elem_ne {M rest : List String} (hM : PlainComps M)
    (hrest : PlainComps rest) {y : String} (hy : y ∈ chainFrom M rest)
    {P : List String} (hP : GoodComps P) (hlen : P.length ≤ M.length) :
    y ≠ renderAbs P := by
  obtain ⟨Q, hyQ, hQne, hQlen, hQmem⟩ := chainFrom_mem_shape hy
  intro he
  rw [hyQ] at he
  have hgood : GoodComps (M ++ Q) :=
    goodComps_append (plainComps_good hM)
      (plainComps_good (fun s hs => hrest s (hQmem s hs)))
  have heq := renderAbs_inj hgood hP he
  have hlen2 := congrArg List.length heq
  rw [List.length_append] at hlen2
  have hQpos : 0 < Q.length := List.length_pos.mpr hQne
  omega

theorem getPathsAux_chain : ∀ (rest M : List String),
    PlainComps M → PlainComps rest →
    MemoryFs.getPathsAux (renderAbs M) rest = chainFrom M rest
  | [], _, _, _ => rfl
  | x :: rest, M, hM, hr => by
    have hx := hr x (List.mem_cons_self _ _)
    have hx1 : PlainComps [x] := fun s hs => by
      rw [List.mem_singleton.mp hs]; exact hx
    simp only [MemoryFs.getPathsAux]
    rw [join_snoc hM hx.1 hx.2.1 hx.2.2,
      getPathsAux_chain rest (M ++ [x]) (plainComps_append hM hx1)
        (fun s hs => hr s (List.mem_cons_of_mem _ hs))]
    rfl

theorem getPaths_renderAbs {P : List String} (hP : PlainComps P) (hPn : P ≠ []) :
    MemoryFs.getPaths (renderAbs P) = "/" :: chainFrom [] P := by
  unfold MemoryFs.getPaths
  rw [resolve_root_renderAbs (plainComps_good hP),
    jsSplit_renderAbs (plainComps_good hP) hPn]
  show MemoryFs.getPathsAux "/" ("" :: P) = _
  simp only [MemoryFs.getPathsAux]
  rw [show Path.join ["/", ""] = "/" from by decide]
  rw [show ("/" : String) = renderAbs [] from by decide,
    getPathsAux_chain P [] (fun s hs => by simp at hs) hP]

theorem hasPathAvailableAux_not_file : ∀ (rest M : List String) (fs : Fs),
    PlainComps M → PlainComps rest →
    MemoryFs.hasPathAvailableAux fs (renderAbs M) rest = true →
    ∀ y ∈ chainFrom M rest, ∀ fp fc fst,
      getKey fs y ≠ .node (.file fp fc fst)
  | [], _, _, _, _, _ => by
    intro y hy
    simp [chainFrom] at hy
  | x :: rest, M, fs, hM, hr, h => by
    have hx := hr x (List.mem_cons_self _ _)
    have hx1 : PlainComps [x] := fun s hs => by
      rw [List.mem_singleton.mp hs]; exact hx
    simp only [MemoryFs.hasPathAvailableAux] at h
    rw [join_snoc hM hx.1 hx.2.1 hx.2.2,
      getNode_renderAbs fs (plainComps_good (plainComps_append hM hx1))] at h
    intro y hy fp fc fst
    rw [show chainFrom M (x :: rest) =
      renderAbs (M ++ [x]) :: chainFrom (M ++ [x]) rest from rfl,
      List.mem_cons] at hy
    cases hg : getKey fs (renderAbs (M ++ [x])) with
    | node n =>
      cases n with
      | file nfp nfc nfst =>
        rw [hg] at h
        simp at h
      | dir ndp ndc ndst =>
        rw [hg] at h
        rcases hy with hy | hy
        · rw [hy, hg]
          simp
        · exact hasPathAvailableAux_not_file rest (M ++ [x]) fs
            (plainComps_append hM hx1)
            (fun s hs => hr s (List.mem_cons_of_mem _ hs)) h y hy fp fc fst
    | null =>
      rw [hg] at h
      rcases hy with hy | hy
      · rw [hy, hg]
        simp
      · exact hasPathAvailableAux_not_file rest (M ++ [x]) fs
          (plainComps_append hM hx1)
          (fun s hs => hr s (List.mem_cons_of_mem _ hs)) h y hy fp fc fst
    | undefined =>
      rw [hg] at h
      rcases hy with hy | hy
      · rw [hy, hg]
        simp
      · exact hasPathAvailableAux_not_file rest (M ++ [x]) fs
          (plainComps_append hM hx1)
          (fun s hs => hr s (List.mem_cons_of_mem _ hs)) h y hy fp fc fst

end Denzai

namespace Denzai

theorem mkdirLoop_chain : ∀ (rest M : List String) (fs : Fs) (ts now : Nat),
    PlainComps M → PlainComps rest → wfFs fs = true →
    (∀ y ∈ chainFrom M rest, ∀ fp fc fst,
      getKey fs y ≠ .node (.file fp fc fst)) →
    (∃ ch st, getKey fs (renderAbs M) = .node (.dir (renderAbs M) ch st)) →
    ∃ fs2, MemoryFs.mkdirLoop fs (chainFrom M rest) ts now = (.ok (), fs2) ∧
      wfFs fs2 = true ∧
      (∃ ch st, getKey fs2 (renderAbs (M ++ rest)) =
        .node (.dir (renderAbs (M ++ rest)) ch st)) ∧
      (∀ k, k ≠ renderAbs M → (∀ y ∈ chainFrom M rest, k ≠ y) →
        getKey fs2 k = getKey fs k)
  | [], M, fs, ts, now, _, _, hwf, _, hpardir => by
    refine ⟨fs, rfl, hwf, ?_, fun k _ _ => rfl⟩
    rw [List.append_nil]
    exact hpardir
  | x :: rest, M, fs, ts, now, hM, hr, hwf, hfiles, hpardir => by
    have hx := hr x (List.mem_cons_self _ _)
    have hx1 : PlainComps [x] := fun s hs => by
      rw [List.mem_singleton.mp hs]; exact hx
    have hMx : PlainComps (M ++ [x]) := plainComps_append hM hx1
    have hrest : PlainComps rest := fun s hs => hr s (List.mem_cons_of_mem _ hs)
    have hMxne : M ++ [x] ≠ [] := by simp
    have hchain : chainFrom M (x :: rest) =
        renderAbs (M ++ [x]) :: chainFrom (M ++ [x]) rest := rfl
    cases hg : getKey fs (renderAbs (M ++ [x])) with
    | undefined => exact absurd hg (getKey_ne_undefined hwf _)
    | node n =>
      cases n with
      | file fp fc fst =>
        exact absurd hg (hfiles (renderAbs (M ++ [x]))
          (hchain ▸ List.mem_cons_self _ _) fp fc fst)
      | dir dp dch dst =>
        have hdp : dp = renderAbs (M ++ [x]) :=
          ((getKey_node_mem hwf).mp hg).2
        have hloop : MemoryFs.mkdirLoop fs (chainFrom M (x :: rest)) ts now =
            MemoryFs.mkdirLoop fs (chainFrom (M ++ [x]) rest) ts now := by
          rw [hchain]
          simp only [MemoryFs.mkdirLoop]
          rw [getNode_renderAbs fs (plainComps_good hMx)]
          simp only [hg]
        obtain ⟨fs3, hl3, hwf3, hdir3, hframe3⟩ :=
          mkdirLoop_chain rest (M ++ [x]) fs ts now hMx hrest hwf
            (fun y hy fp fc fst => hfiles y
              (hchain ▸ List.mem_cons_of_mem _ hy) fp fc fst)
            ⟨dch, dst, by have hg2 := hg; rw [hdp] at hg2; exact hg2⟩
        refine ⟨fs3, hloop.trans hl3, hwf3, ?_, ?_⟩
        · rw [List.append_assoc, List.singleton_append] at hdir3
          exact hdir3
        · intro k hkM hkchain
          exact hframe3 k
            (hkchain (renderAbs (M ++ [x])) (hchain ▸ List.mem_cons_self _ _))
            (fun y hy => hkchain y (hchain ▸ List.mem_cons_of_mem _ hy))
    | null =>
      obtain ⟨ch, st, hpdir⟩ := hpardir
      have hparg : getKey fs (renderAbs (M ++ [x]).dropLast) =
          .node (.dir (renderAbs M) ch st) := by
        rw [List.dropLast_concat]
        exact hpdir
      obtain ⟨heq, hwf2, hkey2, hpar2, hframe2⟩ := @addNode_create fs hwf
        (.dir (renderAbs (M ++ [x])) [] (allTimes ts)) (M ++ [x])
        (plainComps_good hMx) hMxne rfl hg (renderAbs M) ch st hparg
        (some false) rfl ts now
      obtain ⟨fs3, hl3, hwf3, hdir3, hframe3⟩ :=
        mkdirLoop_chain rest (M ++ [x]) _ ts now hMx hrest hwf2
          (fun y hy fp fc fst => by
            rw [hframe2 y
              (chain_elem_ne hMx hrest hy (plainComps_good hMx) (le_refl _))
              (by
                rw [List.dropLast_concat]
                exact chain_elem_ne hMx hrest hy (plainComps_good hM)
                  (by rw [List.length_append]; omega))]
            exact hfiles y (hchain ▸ List.mem_cons_of_mem _ hy) fp fc fst)
          ⟨[], allTimes ts, hkey2⟩
      refine ⟨fs3, ?_, hwf3, ?_, ?_⟩
      · rw [hchain]
        simp only [MemoryFs.mkdirLoop]
        rw [getNode_renderAbs fs (plainComps_good hMx)]
        simp only [hg]
        simp only [heq]
        exact hl3
      · rw [List.append_assoc, List.singleton_append] at hdir3
        exact hdir3
      · intro k hkM hkchain
        rw [hframe3 k
          (hkchain (renderAbs (M ++ [x])) (hchain ▸ List.mem_cons_self _ _))
          (fun y hy => hkchain y (hchain ▸ List.mem_cons_of_mem _ hy))]
        exact hframe2 k
          (hkchain (renderAbs (M ++ [x])) (hchain ▸ List.mem_cons_self _ _))
          (by
            rw [List.dropLast_concat]
            exact hkM)

end Denzai

namespace Denzai

theorem chain_elem_ne_long {M rest : List String} (hM : PlainComps M)
    (hrest : PlainComps rest) {y : String} (hy : y ∈ chainFrom M rest)
    {P : List String} (hP : GoodComps P)
    (hlen : M.length + rest.length < P.length) : y ≠ renderAbs P := by
  obtain ⟨Q, hyQ, hQne, hQlen, hQmem⟩ := chainFrom_mem_shape hy
  intro he
  rw [hyQ] at he
  have hgood : GoodComps (M ++ Q) :=
    goodComps_append (plainComps_good hM)
      (plainComps_good (fun s hs => hrest s (hQmem s hs)))
  have heq := renderAbs_inj hgood hP he
  have hlen2 := congrArg List.length heq
  rw [List.length_append] at hlen2
  omega

theorem chainFrom_mem_last : ∀ (rest M : List String), rest ≠ [] →
    renderAbs (M ++ rest) ∈ chainFrom M rest
  | [], _, h => absurd rfl h
  | [x], M, _ => List.mem_cons_self _ _
  | x :: y :: rest, M, _ => by
    rw [show chainFrom M (x :: y :: rest) =
      renderAbs (M ++ [x]) :: chainFrom (M ++ [x]) (y :: rest) from rfl]
    apply List.mem_cons_of_mem
    have h2 := chainFrom_mem_last (y :: rest) (M ++ [x]) (by simp)
    rw [List.append_assoc, List.singleton_append] at h2
    exact h2

theorem wfFs_set_preserve {fs : Fs} (hwf : wfFs fs = true) {i : Nat}
    {oldn newn : FsNode} (hslot : fs.nodes.get? i = some (some oldn))
    (hp : newn.path = oldn.path) :
    wfFs { fs with nodes := fs.nodes.set i (some newn) } = true := by
  apply wfFs_of
  · intro slot hs
    rcases List.mem_or_eq_of_mem_set hs with hs | hs
    · exact wfFs_no_holes hwf slot hs
    · rw [hs]; rfl
  · intro p hp2
    obtain ⟨n0, hn0, hp0⟩ := wfFs_entry hwf hp2
    by_cases hpe : p.2 = i
    · refine ⟨newn, ?_, ?_⟩
      · show (fs.nodes.set i (some newn)).get? p.2 = some (some newn)
        rw [hpe, List.get?_set_eq_of_lt]
        exact (List.get?_eq_some.mp hslot).1
      · rw [hpe] at hn0
        rw [hn0] at hslot
        injection hslot with h2
        injection h2 with h3
        rw [hp, ← h3]
        exact hp0
    · refine ⟨n0, ?_, hp0⟩
      show (fs.nodes.set i (some newn)).get? p.2 = some (some n0)
      rw [List.get?_set_ne _ _ (fun he => hpe he.symm)]
      exact hn0
  · intro j n hn
    by_cases hje : j = i
    · rw [show ({ fs with nodes := fs.nodes.set i (some newn) } : Fs).nodes =
        fs.nodes.set i (some newn) from rfl, hje] at hn
      rw [List.get?_set_eq_of_lt] at hn
      · injection hn with h2
        injection h2 with h3
        show idxLookup fs.index n.path = some j
        rw [← h3, hp, hje]
        exact wfFs_slot hwf hslot
      · exact (List.get?_eq_some.mp hslot).1
    · rw [show ({ fs with nodes := fs.nodes.set i (some newn) } : Fs).nodes =
        fs.nodes.set i (some newn) from rfl,
        List.get?_set_ne _ _ (fun he => hje he.symm)] at hn
      exact wfFs_slot hwf hn

end Denzai

/-! ### `write` overwriting an existing file, and recursive `mkdir` -/

namespace Denzai

theorem write_overwrite {fs : Fs} (hwf : wfFs fs = true)
    (context : StoreContext) (p c : String) (recursive? : Option Bool)
    (timestamp? : Option Nat) (now : Nat) {L : List String} (hL : GoodComps L)
    (hrp : Path.resolveWithinJail context.jail context.pwd p = renderAbs L)
    {oc : String} {fst : StoreNodeTime}
    (hfile : getKey fs (renderAbs L) = .node (.file (renderAbs L) oc fst))
    {pch : List String} {pst : StoreNodeTime}
    (hpar : getKey fs (renderAbs L.dropLast) =
      .node (.dir (renderAbs L.dropLast) pch pst)) :
    (MemoryFs.write fs context p c recursive? timestamp? now).1 = .ok () ∧
    wfFs (MemoryFs.write fs context p c recursive? timestamp? now).2 = true ∧
    getKey (MemoryFs.write fs context p c recursive? timestamp? now).2
      (renderAbs L) =
      .node (.file (renderAbs L) c
        { fst with mtime := some (timestamp?.getD now) }) ∧
    (∃ n, getKey (MemoryFs.write fs context p c recursive? timestamp? now).2
      (renderAbs L.dropLast) = .node n) := by
  have hLne : L ≠ [] := by
    intro h
    subst h
    rw [show ([] : List String).dropLast = [] from rfl, hfile] at hpar
    simp at hpar
  have hgdl : GoodComps L.dropLast := goodComps_dropLast hL
  have hne : renderAbs L.dropLast ≠ renderAbs L := renderAbs_dropLast_ne hL hLne
  obtain ⟨i, hi, hn⟩ := getKey_node_inv hfile
  obtain ⟨j, hj, hjn⟩ := getKey_node_inv hpar
  have hilt : i < fs.nodes.length := (List.get?_eq_some.mp hn).1
  have hjlt : j < fs.nodes.length := (List.get?_eq_some.mp hjn).1
  have hij : i ≠ j := by
    intro he
    rw [he, hjn] at hn
    injection hn with h2
    injection h2 with h3
    simp at h3
  have hstep1 := @updateNode_found fs (renderAbs L) (renderAbs L) i
    (.file (renderAbs L) oc fst) (resolve_root_renderAbs hL) hi hn
    (fun n => match n with
      | .file q _ st => .file q c { st with mtime := some (timestamp?.getD now) }
      | other => other)
  have hj1 : idxLookup ({ fs with
      nodes :=
        fs.nodes.set i
          (some (.file (renderAbs L) c
            { fst with mtime := some (timestamp?.getD now) })) } : Fs).index
      (renderAbs L.dropLast) = some j := hj
  have hjn1 : ({ fs with
      nodes :=
        fs.nodes.set i
          (some (.file (renderAbs L) c
            { fst with
              mtime := some (timestamp?.getD now) })) } : Fs).nodes.get? j =
      some (some (FsNode.dir (renderAbs L.dropLast) pch pst)) := by
    show (fs.nodes.set i _).get? j = _
    rw [List.get?_set_ne _ _ hij]
    exact hjn
  have hpar1 : getKey { fs with
      nodes :=
        fs.nodes.set i
          (some (.file (renderAbs L) c
            { fst with mtime := some (timestamp?.getD now) })) }
      (renderAbs L.dropLast) =
      .node (.dir (renderAbs L.dropLast) pch pst) := by
    rw [getKey_of_set_ne (fun he => hij (by
      rw [hj] at he
      injection he with h2
      exact h2.symm))]
    exact hpar
  have hwrite : MemoryFs.write fs context p c recursive? timestamp? now =
      (.ok (), { fs with
        nodes :=
          (fs.nodes.set i
            (some (.file (renderAbs L) c
              { fst with mtime := some (timestamp?.getD now) }))).set j
            (some (FsNode.setMtime (timestamp?.getD now)
              (.dir (renderAbs L.dropLast) pch pst))) }) := by
    simp only [MemoryFs.write]
    rw [hrp, getNode_renderAbs fs hL]
    simp only [hfile]
    rw [hstep1]
    rw [show MemoryFs.getParent { fs with
        nodes :=
          fs.nodes.set i
            (some (.file (renderAbs L) c
              { fst with mtime := some (timestamp?.getD now) })) }
        (renderAbs L) = getKey { fs with
        nodes :=
          fs.nodes.set i
            (some (.file (renderAbs L) c
              { fst with mtime := some (timestamp?.getD now) })) }
        (renderAbs L.dropLast) from getParent_renderAbs _ hL]
    simp only [hpar1]
    rw [show MemoryFs.parentKey (renderAbs L) = renderAbs L.dropLast from
      parentKey_renderAbs hL]
    rw [@updateNode_found
      { fs with
        nodes :=
          fs.nodes.set i
            (some (.file (renderAbs L) c
              { fst with mtime := some (timestamp?.getD now) })) }
      (renderAbs L.dropLast) (renderAbs L.dropLast) j
      (.dir (renderAbs L.dropLast) pch pst)
      (resolve_root_renderAbs hgdl) hj1 hjn1
      (FsNode.setMtime (timestamp?.getD now))]
  rw [hwrite]
  refine ⟨rfl, ?_, ?_, ?_⟩
  · show wfFs { fs with
      nodes :=
        (fs.nodes.set i _).set j _ } = true
    have hwf1 : wfFs { fs with
        nodes :=
          fs.nodes.set i
            (some (.file (renderAbs L) c
              { fst with mtime := some (timestamp?.getD now) })) } = true :=
      wfFs_set_preserve hwf hn rfl
    exact wfFs_set_preserve hwf1 hjn1 rfl
  · refine getKey_node_of_lookup hi ?_
    show ((fs.nodes.set i _).set j _).get? i = _
    rw [List.get?_set_ne _ _ (fun he => hij he.symm)]
    rw [List.get?_set_eq_of_lt]
    exact hilt
  · refine ⟨FsNode.setMtime (timestamp?.getD now)
      (.dir (renderAbs L.dropLast) pch pst), ?_⟩
    refine getKey_node_of_lookup hj ?_
    show ((fs.nodes.set i _).set j _).get? j = _
    rw [List.get?_set_eq_of_lt]
    rw [List.length_set]
    exact hjlt

end Denzai

namespace Denzai

theorem mkdir_creates {fs : Fs} (hwf : wfFs fs = true)
    (context : StoreContext) (q : String) (ts? : Option Nat) (now : Nat)
    {P : List String} (hP : PlainComps P) (hPne : P ≠ [])
    (hrq : Path.resolveWithinJail context.jail context.pwd q = renderAbs P)
    (hnull : getKey fs (renderAbs P) = .null)
    {rch : List String} {rst : StoreNodeTime}
    (hroot : getKey fs "/" = .node (.dir "/" rch rst))
    (ha : MemoryFs.hasPathAvailable fs (renderAbs P) = true) :
    ∃ fs2, MemoryFs.mkdir fs context q (some true) ts? now = (.ok (), fs2) ∧
      wfFs fs2 = true ∧
      (∃ ch st, getKey fs2 (renderAbs P) = .node (.dir (renderAbs P) ch st)) ∧
      (∀ k, k ≠ renderAbs [] → (∀ y ∈ chainFrom [] P, k ≠ y) →
        getKey fs2 k = getKey fs k) := by
  have hroot2 : getKey fs (renderAbs []) =
      .node (.dir (renderAbs []) rch rst) := by
    rw [renderAbs_nil_eq_root]
    exact hroot
  have hroot' : MemoryFs.getNode fs "/" = .node (.dir "/" rch rst) := by
    rw [getNode_eq_getKey, show Path.resolve "/" "/" = "/" from by decide]
    exact hroot
  have hPempty : PlainComps ([] : List String) := fun s hs => by simp at hs
  have hnotfile : ∀ y ∈ chainFrom [] P, ∀ fp fc fst,
      getKey fs y ≠ .node (.file fp fc fst) := by
    refine hasPathAvailableAux_not_file P [] fs hPempty hP ?_
    unfold MemoryFs.hasPathAvailable at ha
    rw [jsSplit_renderAbs (plainComps_good hP) hPne] at ha
    simp only [MemoryFs.hasPathAvailableAux] at ha
    rw [show Path.join ["/", ""] = "/" from by decide, hroot'] at ha
    rw [show ("/" : String) = renderAbs [] from by decide] at ha
    exact ha
  obtain ⟨fs1, hl1, hwf1, hdir1, hframe1⟩ :=
    mkdirLoop_chain P [] fs (ts?.getD now) now hPempty hP hwf hnotfile
      ⟨rch, rst, hroot2⟩
  rw [List.nil_append] at hdir1
  obtain ⟨hok, hwfr, hpres⟩ := rebuildIndex_preserves hwf1
  have hmk : MemoryFs.mkdir fs context q (some true) ts? now =
      MemoryFs.rebuildIndex fs1 := by
    simp only [MemoryFs.mkdir]
    rw [hrq, getNode_renderAbs fs (plainComps_good hP)]
    simp only [hnull, Option.getD_some, Bool.not_true, Bool.false_eq_true,
      if_false, ha, Bool.not_false, Bool.true_eq_false]
    rw [getPaths_renderAbs hP hPne]
    simp only [MemoryFs.mkdirLoop]
    rw [hroot']
    simp only [hl1]
  refine ⟨(MemoryFs.rebuildIndex fs1).2, ?_, hwfr, ?_, ?_⟩
  · rw [hmk]
    exact Prod.ext hok rfl
  · obtain ⟨ch, st, hd⟩ := hdir1
    exact ⟨ch, st, by rw [hpres]; exact hd⟩
  · intro k hk1 hk2
    rw [hpres]
    exact hframe1 k hk1 hk2

end Denzai

namespace Denzai

theorem write_deep_create {fs : Fs} (hwf : wfFs fs = true)
    (context : StoreContext) (p c : String) (now : Nat) {L : List String}
    (hL : PlainComps L)
    (hrp : Path.resolveWithinJail context.jail context.pwd p = renderAbs L)
    (hnull : getKey fs (renderAbs L) = .null)
    {rch : List String} {rst : StoreNodeTime}
    (hroot : getKey fs "/" = .node (.dir "/" rch rst))
    (hjail : Path.withinJail context.jail (renderAbs L.dropLast) = true)
    (ha : MemoryFs.hasPathAvailable fs (renderAbs L.dropLast) = true) :
    (MemoryFs.write fs context p c none none now).1 = .ok () ∧
    wfFs (MemoryFs.write fs context p c none none now).2 = true ∧
    getKey (MemoryFs.write fs context p c none none now).2 (renderAbs L) =
      .node (.file (renderAbs L) c (allTimes now)) ∧
    (∃ n, getKey (MemoryFs.write fs context p c none none now).2
      (renderAbs L.dropLast) = .node n) := by
  have hLg : GoodComps L := plainComps_good hL
  have hLne : L ≠ [] := by
    intro h
    subst h
    rw [renderAbs_nil_eq_root, hroot] at hnull
    simp at hnull
  have hgdl : GoodComps L.dropLast := goodComps_dropLast hLg
  have hPplain : PlainComps L.dropLast := plainComps_dropLast hL
  have hPempty : PlainComps ([] : List String) := fun s hs => by simp at hs
  cases hpk : getKey fs (renderAbs L.dropLast) with
  | undefined => exact absurd hpk (getKey_ne_undefined hwf _)
  | node n =>
    cases n with
    | dir dp dch dst =>
      obtain ⟨h1, h2, h3, h4, _⟩ := write_create_frame hwf context p c none
        none now hLg hrp hnull hpk
      exact ⟨h1, h2, h3, ⟨_, h4⟩⟩
    | file ffp ffc ffst =>
      by_cases hPn : L.dropLast = []
      · rw [hPn, renderAbs_nil_eq_root, hroot] at hpk
        simp at hpk
      · have hroot' : MemoryFs.getNode fs "/" = .node (.dir "/" rch rst) := by
          rw [getNode_eq_getKey, show Path.resolve "/" "/" = "/" from by decide]
          exact hroot
        have hnotfile := hasPathAvailableAux_not_file L.dropLast [] fs hPempty
          hPplain (by
            unfold MemoryFs.hasPathAvailable at ha
            rw [jsSplit_renderAbs hgdl hPn] at ha
            simp only [MemoryFs.hasPathAvailableAux] at ha
            rw [show Path.join ["/", ""] = "/" from by decide, hroot'] at ha
            rw [show ("/" : String) = renderAbs [] from by decide] at ha
            exact ha)
        have hmem := chainFrom_mem_last L.dropLast [] hPn
        rw [List.nil_append] at hmem
        exact absurd hpk (hnotfile (renderAbs L.dropLast) hmem ffp ffc ffst)
  | null =>
    have hPn : L.dropLast ≠ [] := by
      intro h
      rw [h, renderAbs_nil_eq_root, hroot] at hpk
      simp at hpk
    have hrq : Path.resolveWithinJail context.jail context.pwd
        (Path.dirname (renderAbs L)) = renderAbs L.dropLast := by
      rw [dirname_renderAbs hLg]
      exact rwj_abs_within hgdl hjail context.pwd
    obtain ⟨fs1, hmkeq, hwf1, hdir1, hframe1⟩ := mkdir_creates hwf context
      (Path.dirname (renderAbs L)) (some now) now hPplain hPn hrq hpk hroot ha
    obtain ⟨ch, st, hd1⟩ := hdir1
    have hnull1 : getKey fs1 (renderAbs L) = .null := by
      rw [hframe1 (renderAbs L)
        (by rw [renderAbs_nil_eq_root]; exact renderAbs_ne_root hLg hLne)
        (fun y hy => (chain_elem_ne_long hPempty hPplain hy hLg (by
          simp only [List.length_nil, List.length_dropLast]
          have hp2 := List.length_pos.mpr hLne
          omega)).symm)]
      exact hnull
    obtain ⟨heq2, hwf2, hkey2, hpar2, _⟩ := @addNode_create fs1 hwf1
      (.file (renderAbs L) c (allTimes now)) L hLg hLne rfl hnull1
      (renderAbs L.dropLast) ch st hd1 none rfl now now
    have hwr : MemoryFs.write fs context p c none none now =
        MemoryFs.addNode fs1 (.file (renderAbs L) c (allTimes now)) (some now)
          none now := by
      simp only [MemoryFs.write, Option.getD_none]
      rw [hrp, getNode_renderAbs fs hLg]
      simp only [hnull]
      rw [getParent_renderAbs fs hLg]
      simp only [hpk]
      simp only [hmkeq]
      rw [getParent_renderAbs fs1 hLg]
      simp only [hd1]
      rw [if_pos trivial]
    rw [hwr, heq2]
    exact ⟨rfl, hwf2, hkey2, ⟨_, hpar2⟩⟩

end Denzai

/-! ### C6: write/read round-trip (amended) -/

namespace Denzai

/-- C6 (amended).  Writing then reading returns the written content in
the two situations the engine actually supports: (a) the target already
holds a file and its parent directory exists — the write overwrites in
place; (b) the target names no node, the root directory exists, the
parent chain stays within the jail and contains no file (the engine's
own `hasPathAvailable` test on the parent path) — the write creates the
missing ancestor directories and the file.  In both cases `write`
returns success and an immediate `read` of the same path returns
exactly the written content.  (The original claim, quantified over
every non-directory path, is refuted by `c6_counterexample`: a file on
the ancestor chain makes the write fail with `PATH_UNAVAILABLE`.) -/
theorem c6_write_read_roundtrip_amended :
    (∀ (fs : Fs) (context : StoreContext) (p c : String) (now : Nat)
      (L : List String) (oc : String) (fst : StoreNodeTime)
      (pch : List String) (pst : StoreNodeTime),
      wfFs fs = true → GoodComps L →
      Path.resolveWithinJail context.jail context.pwd p = renderAbs L →
      getKey fs (renderAbs L) = .node (.file (renderAbs L) oc fst) →
      getKey fs (renderAbs L.dropLast) =
        .node (.dir (renderAbs L.dropLast) pch pst) →
      (MemoryFs.write fs context p c none none now).1 = .ok () ∧
      (MemoryFs.read (MemoryFs.write fs context p c none none now).2 context p
        now).1 = .ok c) ∧
    (∀ (fs : Fs) (context : StoreContext) (p c : String) (now : Nat)
      (L : List String) (rch : List String) (rst : StoreNodeTime),
      wfFs fs = true → PlainComps L →
      Path.resolveWithinJail context.jail context.pwd p = renderAbs L →
      getKey fs (renderAbs L) = .null →
      getKey fs "/" = .node (.dir "/" rch rst) →
      Path.withinJail context.jail (renderAbs L.dropLast) = true →
      MemoryFs.hasPathAvailable fs (renderAbs L.dropLast) = true →
      (MemoryFs.write fs context p c none none now).1 = .ok () ∧
      (MemoryFs.read (MemoryFs.write fs context p c none none now).2 context p
        now).1 = .ok c) := by
  constructor
  · intro fs context p c now L oc fst pch pst hwf hL hrp hfile hpar
    have hLne : L ≠ [] := by
      intro h
      subst h
      rw [show ([] : List String).dropLast = [] from rfl, hfile] at hpar
      simp at hpar
    obtain ⟨h1, h2, h3, n, h4⟩ :=
      write_overwrite hwf context p c none none now hL hrp hfile hpar
    exact ⟨h1, (read_frame h2 context p now hL hLne hrp h3 h4).1⟩
  · intro fs context p c now L rch rst hwf hL hrp hnull hroot hjail ha
    have hLne : L ≠ [] := by
      intro h
      subst h
      rw [renderAbs_nil_eq_root, hroot] at hnull
      simp at hnull
    obtain ⟨h1, h2, h3, n, h4⟩ :=
      write_deep_create hwf context p c now hL hrp hnull hroot hjail ha
    exact ⟨h1, (read_frame h2 context p now (plainComps_good hL) hLne hrp
      h3 h4).1⟩

/-- Witness for the amended C6 theorem at concrete inputs: overwriting
the file `/a` and deep-creating `/a/b/c` in the empty engine. -/
theorem c6_witness :
    wfFs { version := "0.1"
           nodes := [some (.dir "/" ["/a"] (allTimes 5)),
             some (.file "/a" "old" (allTimes 6))]
           index := [("/", 0), ("/a", 1)] } = true ∧
    (MemoryFs.write
      { version := "0.1"
        nodes := [some (.dir "/" ["/a"] (allTimes 5)),
          some (.file "/a" "old" (allTimes 6))]
        index := [("/", 0), ("/a", 1)] } ⟨"memory://", "/", "/"⟩ "/a" "new"
      none none 9).1 = .ok () ∧
    (MemoryFs.read (MemoryFs.write
      { version := "0.1"
        nodes := [some (.dir "/" ["/a"] (allTimes 5)),
          some (.file "/a" "old" (allTimes 6))]
        index := [("/", 0), ("/a", 1)] } ⟨"memory://", "/", "/"⟩ "/a" "new"
      none none 9).2 ⟨"memory://", "/", "/"⟩ "/a" 9).1 = .ok "new" ∧
    getKey (MemoryFs.empty "/" (some 5) 5) (renderAbs ["a", "b", "c"]) =
      .null ∧
    MemoryFs.hasPathAvailable (MemoryFs.empty "/" (some 5) 5)
      (renderAbs (["a", "b", "c"]).dropLast) = true ∧
    (MemoryFs.write (MemoryFs.empty "/" (some 5) 5) ⟨"memory://", "/", "/"⟩
      "/a/b/c" "deep" none none 9).1 = .ok () ∧
    (MemoryFs.read (MemoryFs.write (MemoryFs.empty "/" (some 5) 5)
      ⟨"memory://", "/", "/"⟩ "/a/b/c" "deep" none none 9).2
      ⟨"memory://", "/", "/"⟩ "/a/b/c" 9).1 = .ok "deep" := by
  have h1 := c6_write_read_roundtrip_amended.1
    { version := "0.1"
      nodes := [some (.dir "/" ["/a"] (allTimes 5)),
        some (.file "/a" "old" (allTimes 6))]
      index := [("/", 0), ("/a", 1)] } ⟨"memory://", "/", "/"⟩ "/a" "new" 9
    ["a"] "old" (allTimes 6) ["/a"] (allTimes 5) (by decide) (by decide)
    (by decide) (by decide) (by decide)
  have h2 := c6_write_read_roundtrip_amended.2 (MemoryFs.empty "/" (some 5) 5)
    ⟨"memory://", "/", "/"⟩ "/a/b/c" "deep" 9 ["a", "b", "c"] [] (allTimes 5)
    (by decide) (by decide) (by decide) (by decide) (by decide) (by decide)
    (by decide)
  exact ⟨by decide, h1.1, h1.2, by decide, by decide, h2.1, h2.2⟩

end Denzai
